import Mathlib

/-!
# Verification of the django-tables column/row binding and ordering engine

Shallow embedding of the core of the `django_tables` package
(`columns.py`, `memory.py`, `models.py`), together with models of the
handful of helpers that live in the (absent) `base.py` module, which are
marked `Modelled from the spec:` in their doc comments.

Conventions of the embedding:
* Python dicts / `OrderedDict`s are association lists with first-occurrence
  lookup and replace-in-place-or-append assignment (`dictGet` / `dictSet`),
  which matches the observable get/set/iteration behaviour of dicts with
  unique keys.
* Cell values of in-memory table rows are `Cell`: `None`, an int, a string,
  or a callable (represented by an index into an environment
  `Env := Nat → Row → Cell`, because the comparison helper of
  `memory.sort_table` calls a callable cell with the row as argument).
* Model-table records are `Value`: `None`, an int, a string, a zero-argument
  callable, or an object with named attributes, mirroring what
  `BoundModelRow._default_render` touches via `hasattr`/`getattr`.
* The Python 2 builtin `cmp` is modelled by `pyCmp` on `Cell`: `None`
  compares below everything, numbers below other types, and otherwise the
  type (by rank, following cross-type comparison by type name) decides
  before the natural per-type ordering; callables compare by identity
  (their environment index).
* Python's `list.sort(cmp=...)`, a stable sort, is modelled by
  `List.insertionSort`, which Mathlib proves stable; for a comparator that
  is a total preorder (proved below for `cmpRows`) the stable sorted
  permutation is unique, so this is the sort Python performs.
* Mutation of the shared row dicts by `MemoryTable._build_snapshot` is made
  explicit with a store `Store := Nat → Row` mapping row identities to row
  contents; the table's data is a list of row identities, and
  `copy.copy(self._data)` is the same list of identities.
-/

namespace DjangoTables

/-! ## Generic comparator infrastructure -/

/-- Three-way comparison derived from a linear order, returning `-1`, `0` or
`1` as an integer, the shape of results of Python 2's `cmp`. -/
def cmpOf {α : Type _} [LinearOrder α] (a b : α) : Int :=
  if a < b then -1 else if b < a then 1 else 0

/-- Lexicographic combination of two integer comparators: the first one
decides unless it returns `0`. -/
def lexCmp {α : Type _} (c d : α → α → Int) (x y : α) : Int :=
  if c x y ≠ 0 then c x y else d x y

/-- A comparator that behaves like one induced by a total preorder:
antisymmetric in sign, and transitive on the nonpositive side. -/
structure LawfulCmp {α : Type _} (c : α → α → Int) : Prop where
  neg : ∀ x y, c x y = -(c y x)
  le_trans : ∀ x y z, c x y ≤ 0 → c y z ≤ 0 → c x z ≤ 0

/-! ## Association lists: the dict / OrderedDict model -/

/-- Dict lookup (`d.get(k)` resolving to the stored value), first occurrence. -/
def dictGet {α : Type _} : List (String × α) → String → Option α
  | [], _ => none
  | (k, v) :: r, name => if k = name then some v else dictGet r name

/-- Dict assignment `d[k] = v`: replace the value in place if the key is
present, otherwise append the pair, as dict/OrderedDict insertion does. -/
def dictSet {α : Type _} : List (String × α) → String → α → List (String × α)
  | [], k, v => [(k, v)]
  | (k', v') :: r, k, v =>
    if k' = k then (k, v) :: r else (k', v') :: dictSet r k v

/-- `OrderedDict(pairs)`: insert the pairs left to right into an empty dict. -/
def odFromList {α : Type _} (l : List (String × α)) : List (String × α) :=
  l.foldl (fun m p => dictSet m p.1 p.2) []

/-- `d.update(other)`: insert the pairs of `other` left to right into `d`;
existing keys keep their position but take the new value, new keys are
appended in order. -/
def odUpdate {α : Type _} (m other : List (String × α)) : List (String × α) :=
  other.foldl (fun acc p => dictSet acc p.1 p.2) m

/-- The key sequence of an ordered dict. -/
def odKeys {α : Type _} (m : List (String × α)) : List String :=
  m.map Prod.fst

/-! ## Cell values of in-memory rows (`memory.py` data model) -/

/-- A value stored in a row dict of a `MemoryTable` source: `None`, an int,
a string, or a callable referenced by an index into an `Env`. -/
inductive Cell where
  | cnone : Cell
  | cint (n : Int) : Cell
  | cstr (s : String) : Cell
  | cfun (f : Nat) : Cell
deriving DecidableEq, Repr

/-- A row: a dict from field names to cell values. -/
abbrev Row := List (String × Cell)

/-- Environment interpreting callable cells; `memory.sort_table` calls a
callable cell with the row dict as its argument (`lhs(x)`). -/
abbrev Env := Nat → Row → Cell

/-- Row identity store: `MemoryTable` rows are shared, mutable dict objects;
a `Store` maps a row's identity to its current contents. -/
abbrev Store := Nat → Row

/-! ## `columns.py`: the `Column` class -/

/-- `Column.ASC` -/
def ASC : Nat := 1

/-- `Column.DESC` -/
def DESC : Nat := 2

/-- A column `default`: either a literal cell value or a callable (passed a
bound row, modelled as the raw row) referenced by an index into a default
environment. -/
inductive DefaultVal where
  | lit (c : Cell) : DefaultVal
  | fn (f : Nat) : DefaultVal
deriving DecidableEq, Repr

/-- The argument passed for `direction`: `Column._set_direction` validates
strings and stores any non-string unchecked. -/
inductive DirValue where
  | int (n : Nat) : DirValue
  | str (s : String) : DirValue
deriving DecidableEq, Repr

/-- `Column._set_direction` (columns.py:58-67): a string must be exactly
`'asc'` or `'desc'` (the membership test `value in ('asc', 'desc')` is
case sensitive), mapping to `ASC`/`DESC`; any other string raises
`ValueError('Invalid direction value: %s' % value)`; a non-string value is
stored as is. -/
def set_direction : DirValue → Except String Nat
  | .str s =>
    if s = "asc" ∨ s = "desc" then
      .ok (if s = "asc" then ASC else DESC)
    else
      .error ("Invalid direction value: " ++ s)
  | .int n => .ok n

/-- The state of a constructed `Column` (columns.py:44-56). -/
structure Column where
  verbose_name : Option String
  model_rel : Option String
  default : Option DefaultVal
  visible : Bool
  inaccessible : Bool
  sortable : Option Bool
  direction : Nat
  creation_counter : Nat
deriving DecidableEq, Repr

/-- The keyword arguments of `Column.__init__`, with their Python defaults. -/
structure ColumnArgs where
  verbose_name : Option String := none
  model_rel : Option String := none
  default : Option DefaultVal := none
  visible : Bool := true
  inaccessible : Bool := false
  sortable : Option Bool := none
  direction : DirValue := .int ASC
deriving Repr

/-- `Column.__init__` (columns.py:44-56): assigning `self.direction` runs the
`set_direction` property setter, which can raise, before the class-wide
`creation_counter` is read and incremented; the new column receives the
current counter and the counter moves up by one. -/
def mkColumn (a : ColumnArgs) (counter : Nat) : Except String (Column × Nat) :=
  match set_direction a.direction with
  | .error e => .error e
  | .ok d =>
    .ok ({ verbose_name := a.verbose_name, model_rel := a.model_rel,
           default := a.default, visible := a.visible,
           inaccessible := a.inaccessible, sortable := a.sortable,
           direction := d, creation_counter := counter }, counter + 1)

/-- Constructing a sequence of columns one after the other, threading the
class-wide `creation_counter`. -/
def mkColumns : List ColumnArgs → Nat → Except String (List Column × Nat)
  | [], counter => .ok ([], counter)
  | a :: rest, counter =>
    match mkColumn a counter with
    | .error e => .error e
    | .ok (col, counter') =>
      match mkColumns rest counter' with
      | .error e => .error e
      | .ok (cols, counter'') => .ok (col :: cols, counter'')

/-- Modelled from the spec: `BoundColumn.src_accessor` of the absent
`base.py` — the accessor path backing a column "defaults to `name` if
absent" and is otherwise the column's declared `model_rel` (its
`accessorPath` override). -/
def srcAccessor (name : String) (col : Column) : String :=
  col.model_rel.getD name

/-- Modelled from the spec: `BoundColumn.get_default` of the absent
`base.py` (§4.3 step 5) — a callable default is invoked with a bound-row
view of the record, a literal default is used as is, and with no default
set the result is `None`. -/
def get_default (denv : Env) (col : Column) (row : Row) : Cell :=
  match col.default with
  | none => Cell.cnone
  | some (.lit c) => c
  | some (.fn f) => denv f row

/-! ## Ordering tokens and path splitting -/

/-- Split a character list on a single-character separator, accumulating the
current piece in reverse. -/
def splitOnChar (sep : Char) : List Char → List Char → List (List Char)
  | [], acc => [acc.reverse]
  | c :: rest, acc =>
    if c = sep then acc.reverse :: splitOnChar sep rest []
    else splitOnChar sep rest (c :: acc)

/-- Python's `s.split(',')`. -/
def pySplitComma (s : String) : List String :=
  (splitOnChar ',' s.data []).map String.mk

/-- Split a character list on the two-character separator `'__'`, leftmost
non-overlapping occurrences first. -/
def splitDunder : List Char → List Char → List (List Char)
  | [], acc => [acc.reverse]
  | '_' :: '_' :: rest, acc => acc.reverse :: splitDunder rest []
  | c :: rest, acc => splitDunder rest (c :: acc)

/-- Python's `s.split('__')`, the accessor path split of
`BoundModelRow._default_render`. -/
def pySplitDunder (s : String) : List String :=
  (splitDunder s.data []).map String.mk

/-- `o.startswith('-')` on an ordering token. -/
def startsWithMinus (t : String) : Bool :=
  match t.data with
  | '-' :: _ => true
  | _ => false

/-- Strip one leading minus sign from a token (`o[1:]` under a
`startswith('-')` guard). -/
def stripMinus (t : String) : String :=
  match t.data with
  | '-' :: rest => String.mk rest
  | _ => t

/-- Prepend a minus sign to a token. -/
def addMinus (s : String) : String :=
  String.mk ('-' :: s.data)

/-- Toggle the minus sign of a token. -/
def toggleMinus (t : String) : String :=
  match t.data with
  | '-' :: rest => String.mk rest
  | l => String.mk ('-' :: l)

/-! ## `memory.py`: `sort_table` -/

/-- The type rank used by the model of Python 2's builtin `cmp`:
`None` below everything, then numbers, then (by type name) functions,
then strings. -/
def rank : Cell → Nat
  | .cnone => 0
  | .cint _ => 1
  | .cfun _ => 2
  | .cstr _ => 3

/-- The integer payload of a cell (its number, or its identity for a
callable), compared when ranks agree. -/
def payloadInt : Cell → Int
  | .cint n => n
  | .cfun f => (f : Int)
  | _ => 0

/-- The string payload of a cell, compared when ranks agree. -/
def payloadStr : Cell → String
  | .cstr s => s
  | _ => ""

/-- Three-way comparison of character lists, ordinal by ordinal with the
shorter prefix first — Python 2's string comparison. -/
def cmpChars : List Char → List Char → Int
  | [], [] => 0
  | [], _ :: _ => -1
  | _ :: _, [] => 1
  | a :: as, b :: bs =>
    if a.toNat < b.toNat then -1
    else if b.toNat < a.toNat then 1
    else cmpChars as bs

/-- Three-way comparison of strings by their character data. -/
def cmpStr (a b : String) : Int := cmpChars a.data b.data

/-- Model of the Python 2 builtin `cmp` on the cell domain: different types
compare by `rank`, equal types by their natural ordering (number value,
string order, or identity for callables). -/
def pyCmp : Cell → Cell → Int :=
  lexCmp (fun x y => cmpOf (rank x) (rank y))
    (lexCmp (fun x y => cmpOf (payloadInt x) (payloadInt y))
      (fun x y => cmpStr (payloadStr x) (payloadStr y)))

/-- The value `memory.sort_table._cmp` compares for one key on one row:
`x.get(name)` (so `None` when the key is absent), with a callable value
invoked on the row (`lhs(x)`). -/
def resolveForCmp (env : Env) (row : Row) (name : String) : Cell :=
  match dictGet row name with
  | some (.cfun f) => env f row
  | some v => v
  | none => Cell.cnone

/-- `memory.sort_table` instruction parsing (memory.py:23-28): a token with
a leading hyphen becomes `(rest, reverse := true)`, otherwise
`(token, reverse := false)`. -/
def parseInstructions (order_by : List String) : List (String × Bool) :=
  order_by.map (fun o =>
    if startsWithMinus o then (stripMinus o, true) else (o, false))

/-- `memory.sort_table._cmp` (memory.py:15-22): walk the instructions in
order; for each key compare the two rows' resolved values with `cmp`,
negate the result if the key is reversed, and return the first nonzero
result; return `0` if every key ties. -/
def cmpRows (env : Env) : List (String × Bool) → Row → Row → Int
  | [], _, _ => 0
  | (name, reverse) :: rest, x, y =>
    let res := pyCmp (resolveForCmp env x name) (resolveForCmp env y name)
    if res ≠ 0 then (if reverse then -res else res) else cmpRows env rest x y

/-- The nonstrict comparison relation `_cmp(x, y) <= 0` that
`data.sort(cmp=_cmp)` sorts by. -/
def rowLe (env : Env) (instr : List (String × Bool)) (x y : Row) : Prop :=
  cmpRows env instr x y ≤ 0

instance (env : Env) (instr : List (String × Bool)) :
    DecidableRel (rowLe env instr) :=
  fun x y => inferInstanceAs (Decidable (cmpRows env instr x y ≤ 0))

/-- `memory.sort_table` (memory.py:9-29): stable in-place sort of a list of
row dicts by the parsed instructions.  Python's `list.sort` is a stable
sort; it is modelled by the stable `List.insertionSort`, which computes the
same (unique) stable sorted permutation for the lawful comparator
`cmpRows`. -/
def sort_table (env : Env) (order_by : List String) (data : List Row) :
    List Row :=
  data.insertionSort (rowLe env (parseInstructions order_by))

/-! ## Modelled helpers of the absent `base.py` used by the snapshot -/

/-- Modelled from the spec: `BaseTable._resolve_sort_directions` of the
absent `base.py`.  The spec's §4.4 step 4 ("explicit sign from the token if
present, else the column's own configured `sortDirection` default")
conflicts with the in-source tests (`tests/test_models.py::test_sort`: on a
column declared with `direction='desc'`, the unsigned token `'name'` sorts
descending and the signed token `'-name'` sorts ascending) and with the
`Column` docstring ("this option changes the actual direction only
indirectly. Normal und reverse order ... now simply mean different
things").  Following the source authority, a column whose default direction
is `DESC` has the minus sign of its tokens toggled, so a token's sign
selects between the column's default direction and its reverse. -/
def resolve_sort_directions (cols : List (String × Column))
    (order_by : List String) : List String :=
  order_by.map (fun tok =>
    match dictGet cols (stripMinus tok) with
    | some col => if col.direction = DESC then toggleMinus tok else tok
    | none => tok)

/-- Modelled from the spec: `BaseTable._col_names_to_src_names` of the
absent `base.py` — translate ordering tokens from column names to the
backing accessor paths ("translate `resolvedOrder` into the native ordering
call using each key's backing accessor path(s)"), keeping each token's
minus sign. -/
def col_names_to_src_names (cols : List (String × Column))
    (toks : List String) : List String :=
  toks.map (fun tok =>
    let name := stripMinus tok
    let src := match dictGet cols name with
      | some col => srcAccessor name col
      | none => name
    if startsWithMinus tok then addMinus src else src)

/-! ## `memory.py`: `MemoryTable._build_snapshot` -/

/-- The inner loop of `MemoryTable._build_snapshot` (memory.py:64-68) for
one row: for each column of the registry, in order, if the row's value at
the column's source accessor is absent or `None`, write the column's
computed default (computed from the current, partially defaulted row) into
the row. -/
def fillStep (denv : Env) (r : Row) (nc : String × Column) : Row :=
  if (dictGet r (srcAccessor nc.1 nc.2)).getD Cell.cnone = Cell.cnone then
    dictSet r (srcAccessor nc.1 nc.2) (get_default denv nc.2 r)
  else r

/-- The per-row defaulting pass: fold `fillStep` over the registry columns. -/
def fillRow (denv : Env) (cols : List (String × Column)) (row : Row) : Row :=
  cols.foldl (fillStep denv) row

/-- The defaulting pass of `MemoryTable._build_snapshot` over all rows of
the (shallowly copied) snapshot: each row object named by the data list is
mutated in place in the store. -/
def fillDefaults (denv : Env) (cols : List (String × Column))
    (store : Store) (ids : List Nat) : Store :=
  ids.foldl (fun st i => Function.update st i (fillRow denv cols (st i))) store

/-- The comparison relation of the snapshot sort, on row identities. -/
def idLe (env : Env) (instr : List (String × Bool)) (store : Store)
    (i j : Nat) : Prop :=
  cmpRows env instr (store i) (store j) ≤ 0

instance (env : Env) (instr : List (String × Bool)) (store : Store) :
    DecidableRel (idLe env instr store) :=
  fun i j => inferInstanceAs (Decidable (cmpRows env instr (store i) (store j) ≤ 0))

/-- `MemoryTable._build_snapshot` (memory.py:37-73): shallowly copy the data
list (`copy.copy` keeps the same row objects, here the same row
identities), fill defaults into every row in place, and, if an ordering is
set (a nonempty tuple), sort the snapshot with `sort_table` after resolving
sort directions and translating column names to source accessors.  Returns
the updated store and the snapshot list. -/
def build_snapshot (env denv : Env) (cols : List (String × Column))
    (order_by : List String) (store : Store) (ids : List Nat) :
    Store × List Nat :=
  let store' := fillDefaults denv cols store ids
  let snapshot := ids
  if order_by.isEmpty then (store', snapshot)
  else
    let actual := resolve_sort_directions cols order_by
    let instr := parseInstructions (col_names_to_src_names cols actual)
    (store', snapshot.insertionSort (idLe env instr store'))

/-! ## Ordering validation (`models.py` and modelled `base.py`) -/

/-- Modelled from the spec: `BaseTable._validate_column_name` of the absent
`base.py` (§4.4 step 3) — a requested ordering name "must exist, be
`sortable` (explicit true, or — when unset — sortable by policy default
based on whether the registry reports the accessor as backed by an
orderable source field), and be `accessible`".  The backing source's
orderability of an accessor path is the parameter `orderable`. -/
def base_validate_column_name (orderable : String → Bool)
    (cols : List (String × Column)) (name : String) : Bool :=
  match dictGet cols name with
  | none => false
  | some col =>
    !col.inaccessible &&
      (match col.sortable with
       | some b => b
       | none => orderable (srcAccessor name col))

/-- `ModelTable._validate_column_name` (models.py:192-226): defer to the
base validation first; for the `'order_by'` purpose, additionally let the
backing source validate the column's accessor path as an ordering lookup
(Django building the query; a `FieldError` means invalid, modelled by
`orderable` returning `false`); any other purpose returns `False`. -/
def validate_column_name (orderable : String → Bool)
    (cols : List (String × Column)) (purpose name : String) : Bool :=
  if !base_validate_column_name orderable cols name then false
  else if purpose = "order_by" then
    match dictGet cols name with
    | some col => orderable (srcAccessor name col)
    | none => false
  else false

/-- An ordering request, as accepted by the `order_by` setter: a
comma-separated string or a sequence of tokens. -/
inductive OrderInput where
  | str (s : String) : OrderInput
  | seq (l : List String) : OrderInput

/-- Tokenize an ordering request: split a string form on commas, keep a
sequence form as is. -/
def tokenizeOrdering : OrderInput → List String
  | .str s => pySplitComma s
  | .seq l => l

/-- Modelled from the spec: the `order_by` setter of the absent `base.py`
(§4.4 steps 1-3, 5 and §6 `setOrdering`) — tokenize the request, strip a
leading minus from each token to get the raw column name, validate the name
for the `'order_by'` purpose, and silently drop every token that fails
validation, keeping the survivors in order; no error is raised even when
every token is dropped. -/
def set_order_by (orderable : String → Bool) (cols : List (String × Column))
    (input : OrderInput) : List String :=
  (tokenizeOrdering input).filter
    (fun t => validate_column_name orderable cols "order_by" (stripMinus t))

/-! ## `models.py`: `BoundModelRow._default_render` -/

/-- A model-table record value: `None`, an int, a string, a zero-argument
callable (model methods are called with no arguments), or an object with
named attributes. -/
inductive Value where
  | vnone : Value
  | vint (n : Int) : Value
  | vstr (s : String) : Value
  | vfun (body : Value) : Value
  | vobj (attrs : List (String × Value)) : Value

/-- `hasattr(current, bit)`: only objects carry (the modelled) attributes. -/
def hasattrV : Value → String → Bool
  | .vobj attrs, bit => (dictGet attrs bit).isSome
  | _, _ => false

/-- `getattr(current, bit)` (meaningful under a `hasattrV` guard). -/
def getattrV : Value → String → Value
  | .vobj attrs, bit => (dictGet attrs bit).getD .vnone
  | _, _ => .vnone

/-- `if callable(current): current = current()` — invoke a callable once. -/
def invokeV : Value → Value
  | .vfun body => body
  | v => v

/-- `current is None` -/
def isNoneV : Value → Bool
  | .vnone => true
  | _ => false

/-- The error raised by `BoundModelRow._default_render`
(`ValueError("Could not resolve %s from %s" % (bit, boundcol.src_accessor))`):
it names the unresolved segment and the full accessor path. -/
structure ResolutionError where
  segment : String
  path : String
deriving DecidableEq, Repr

/-- The traversal loop of `BoundModelRow._default_render` (models.py:73-96):
walk the `__`-separated path segments in order; a segment that is not an
attribute of the current object raises the resolution error naming the
segment and the full path; otherwise fetch the attribute, invoke it if
callable, and stop with `None` as soon as the value is `None` (so a
relationship spanning a null key does not error on the next segment). -/
def resolveBits (path : String) : List String → Value →
    Except ResolutionError Value
  | [], current => .ok current
  | bit :: rest, current =>
    if hasattrV current bit then
      let next := invokeV (getattrV current bit)
      if isNoneV next then .ok Value.vnone else resolveBits path rest next
    else .error ⟨bit, path⟩

/-- `BoundModelRow._default_render` (models.py:67-102): resolve the
column's source accessor against the record; if the traversal result is
`None` and the column has a default, return the computed default (the
callable form receives the bound row, abstracted as a function of the
record), otherwise return the traversal result (so a final `None` with no
default is returned as is, without raising). -/
def default_render (defaultOpt : Option (Value → Value))
    (src_accessor : String) (record : Value) : Except ResolutionError Value :=
  match resolveBits src_accessor (pySplitDunder src_accessor) record with
  | .error e => .error e
  | .ok current =>
    if isNoneV current then
      match defaultOpt with
      | some f => .ok (f record)
      | none => .ok current
    else .ok current

/-! ## `models.py`: `columns_for_model` and the metaclass merge -/

/-- One pre-resolved model field, as reported by the external schema:
its name and its verbose name. -/
structure Field where
  name : String
  verbose_name : String
deriving DecidableEq, Repr

/-- Python truthiness of an optional list argument (`None` and the empty
list are falsy). -/
def truthy {α : Type _} : Option (List α) → Bool
  | none => false
  | some l => !l.isEmpty

/-- Membership used by `columns_for_model`'s filters. -/
def listHas (l : Option (List String)) (s : String) : Bool :=
  (l.getD []).contains s

/-- One step of the field synthesis loop of `columns_for_model`
(models.py:39-48): skip a field not named by a truthy `columns` list or
named by a truthy `exclude` list; otherwise append a synthesized
`Column(verbose_name=f.verbose_name)`, threading the class-wide creation
counter. -/
def cfmStep (columns exclude : Option (List String))
    (acc : List (String × Option Column) × Nat) (f : Field) :
    List (String × Option Column) × Nat :=
  if (truthy columns && !listHas columns f.name) ||
      (truthy exclude && listHas exclude f.name) then acc
  else
    ((acc.1 ++ [(f.name,
      some { verbose_name := some f.verbose_name, model_rel := none,
             default := none, visible := true, inaccessible := false,
             sortable := none, direction := ASC,
             creation_counter := acc.2 })]), acc.2 + 1)

/-- `columns_for_model` (models.py:27-55): synthesize one column per model
field with `cfmStep`; then, if `columns` is truthy, rebuild the ordered
dict as `[(c, field_dict.get(c)) for c in columns]` filtered by `exclude` —
note `field_dict.get(c)` yields `None` (here `none`) for an include-list
name that is not a kept model field, and such a name stays in the result
bound to no column. -/
def columns_for_model (fields : List Field)
    (columns exclude : Option (List String)) (counter : Nat) :
    List (String × Option Column) × Nat :=
  let built := fields.foldl (cfmStep columns exclude) ([], counter)
  let field_dict := odFromList built.1
  if truthy columns then
    (odFromList ((columns.getD []).filterMap (fun c =>
      if !truthy exclude || !listHas exclude c then
        some (c, (dictGet field_dict c).join)
      else none)), built.2)
  else (field_dict, built.2)

/-- `ModelTableMetaclass.__new__` (models.py:136-152) with a model set:
build the synthesized columns with `columns_for_model`, then overlay the
declared columns with `update`, so a declared definition always replaces a
synthesized one of the same name and declared names missing from the
synthesized dict are appended in declaration order. -/
def model_table_base_columns (declared : List (String × Column))
    (fields : List Field) (columns exclude : Option (List String))
    (counter : Nat) : List (String × Option Column) × Nat :=
  let built := columns_for_model fields columns exclude counter
  (odUpdate built.1 (declared.map (fun p => (p.1, some p.2))), built.2)

/-! ## Concrete fixtures mirroring the test suite's data -/

/-- `tables.Column()` with every argument left at its default. -/
def plainColumn : Column :=
  { verbose_name := none, model_rel := none, default := none, visible := true,
    inaccessible := false, sortable := none, direction := ASC,
    creation_counter := 0 }

/-- `tables.Column(sortable=True)` (the `custom2` column of `test_sort`). -/
def exCustom2 : Column := { plainColumn with sortable := some true }

/-- `tables.Column(default="republic")` (the `system` column of `test_sort`). -/
def exSystemDefault : Column :=
  { plainColumn with default := some (.lit (.cstr "republic")) }

/-- `tables.Column(direction='desc')` (the `name` column of the `CityTable`
in `test_sort`). -/
def exDescName : Column := { plainColumn with direction := DESC }

/-- A declared override column (`test_autogen_basic`'s
`capital = tables.TextColumn(verbose_name='Name of capital')`). -/
def exDeclaredCol : Column :=
  { plainColumn with verbose_name := some "Name of capital" }

/-- A registry like `test_sort`'s `CountryTable`: model-backed columns plus
two custom columns with no backing field. -/
def exCountryCols : List (String × Column) :=
  [("name", plainColumn), ("population", plainColumn),
   ("custom1", plainColumn), ("custom2", exCustom2)]

/-- The backing source's orderable accessor paths for the country model. -/
def exOrderable : String → Bool :=
  fun s => ["name", "population", "tld", "system", "capital"].contains s

/-- An environment with no callables in play. -/
def exEnv : Env := fun _ _ => Cell.cnone

/-- The memory-table registry of the sorting examples: a plain `population`
column and a `system` column with default `"republic"`. -/
def exMemCols : List (String × Column) :=
  [("population", plainColumn), ("system", exSystemDefault)]

/-- Austria: population 8, system `"republic"`. -/
def exRow1 : Row :=
  [("id", .cint 1), ("population", .cint 8), ("system", .cstr "republic")]

/-- Germany: population 81, no `system` value. -/
def exRow2 : Row := [("id", .cint 2), ("population", .cint 81)]

/-- France: population 64, system `"republic"`. -/
def exRow3 : Row :=
  [("id", .cint 3), ("population", .cint 64), ("system", .cstr "republic")]

/-- Netherlands: population 16, system `"monarchy"`. -/
def exRow4 : Row :=
  [("id", .cint 4), ("population", .cint 16), ("system", .cstr "monarchy")]

/-- A row with no `population` value at all. -/
def exRow5 : Row := [("id", .cint 5)]

/-- The store binding row identities 1-5 to the example rows. -/
def exStore : Store := fun i =>
  if i = 1 then exRow1 else if i = 2 then exRow2 else if i = 3 then exRow3
  else if i = 4 then exRow4 else if i = 5 then exRow5 else []

/-- Two rows that tie on the key `"k"` but differ elsewhere. -/
def exTieA : Row := [("k", .cint 1), ("id", .cint 0)]

/-- See `exTieA`. -/
def exTieB : Row := [("k", .cint 1), ("id", .cint 1)]

/-- Schema fields of a small model. -/
def exFields : List Field := [⟨"name", "Name"⟩, ⟨"population", "Population"⟩]

/-- Schema fields including a `capital` field that a test declares over and
excludes. -/
def exCapitalFields : List Field :=
  [⟨"capital", "Capital"⟩, ⟨"tld", "Domain Extension"⟩]

/-- A record shaped like a country with a null `capital` relation. -/
def exRecord : Value :=
  Value.vobj [("capital", Value.vnone), ("name", Value.vstr "Austria"),
    ("population", Value.vint 8)]

/-- A record whose `capital` relation is present and has a `population`. -/
def exRecordFull : Value :=
  Value.vobj [("capital", Value.vobj [("population", Value.vint 30),
    ("name", Value.vstr "Berlin")]), ("name", Value.vstr "Germany")]

/-- Three default column constructions, for exercising the creation
counter. -/
def exSpecs : List ColumnArgs := [{}, {}, {}]

/-- The columns `mkColumns exSpecs 5` constructs: counters 5, 6, 7. -/
def exMkCols : List Column :=
  [{ plainColumn with creation_counter := 5 },
   { plainColumn with creation_counter := 6 },
   { plainColumn with creation_counter := 7 }]

/-- Python's `s.lower()`, on the character list. -/
def pyLower (s : String) : String :=
  String.mk (s.data.map Char.toLower)

/-! ## Lemmas: generic comparators -/

theorem cmpOf_le_iff {α : Type _} [LinearOrder α] (a b : α) :
    cmpOf a b ≤ 0 ↔ a ≤ b := by
  unfold cmpOf
  rcases lt_trichotomy a b with h | h | h
  · simp [h, le_of_lt h]
  · simp [h]
  · simp [not_lt.mpr h.le, h, not_le.mpr h]

theorem cmpOf_lt_iff {α : Type _} [LinearOrder α] (a b : α) :
    cmpOf a b < 0 ↔ a < b := by
  unfold cmpOf
  rcases lt_trichotomy a b with h | h | h
  · simp [h]
  · simp [h, lt_irrefl]
  · simp [not_lt.mpr h.le, h, not_lt.mpr (le_of_lt h)]

theorem cmpOf_neg {α : Type _} [LinearOrder α] (a b : α) :
    cmpOf a b = -(cmpOf b a) := by
  unfold cmpOf
  rcases lt_trichotomy a b with h | h | h
  · simp [h, not_lt.mpr h.le, h.ne']
  · simp [h, lt_irrefl]
  · simp [h, not_lt.mpr h.le, h.ne']

theorem lawful_cmpOf {α : Type _} [LinearOrder α] :
    LawfulCmp (fun a b : α => cmpOf a b) := by
  constructor
  · intro x y; exact cmpOf_neg x y
  · intro x y z hxy hyz
    exact (cmpOf_le_iff x z).mpr
      (le_trans ((cmpOf_le_iff x y).mp hxy) ((cmpOf_le_iff y z).mp hyz))

theorem LawfulCmp.zero_self {α : Type _} {c : α → α → Int} (h : LawfulCmp c)
    (x : α) : c x x = 0 := by
  have := h.neg x x; omega

theorem LawfulCmp.le_or_le {α : Type _} {c : α → α → Int} (h : LawfulCmp c)
    (x y : α) : c x y ≤ 0 ∨ c y x ≤ 0 := by
  have := h.neg x y; omega

theorem LawfulCmp.lt_of_le_of_lt {α : Type _} {c : α → α → Int}
    (h : LawfulCmp c) {x y z : α} (hxy : c x y ≤ 0) (hyz : c y z < 0) :
    c x z < 0 := by
  by_contra hc
  push_neg at hc
  have h1 : c z x ≤ 0 := by have := h.neg x z; omega
  have h2 : c z y ≤ 0 := h.le_trans z x y h1 hxy
  have := h.neg y z; omega

theorem LawfulCmp.lt_of_lt_of_le {α : Type _} {c : α → α → Int}
    (h : LawfulCmp c) {x y z : α} (hxy : c x y < 0) (hyz : c y z ≤ 0) :
    c x z < 0 := by
  by_contra hc
  push_neg at hc
  have h1 : c z x ≤ 0 := by have := h.neg x z; omega
  have h2 : c y x ≤ 0 := h.le_trans y z x hyz h1
  have := h.neg x y; omega

theorem LawfulCmp.ofEq {α : Type _} {c d : α → α → Int}
    (hcd : ∀ x y, c x y = d x y) (hd : LawfulCmp d) : LawfulCmp c := by
  constructor
  · intro x y; rw [hcd, hcd]; exact hd.neg x y
  · intro x y z h1 h2
    rw [hcd] at h1 h2 ⊢
    exact hd.le_trans x y z h1 h2

theorem LawfulCmp.comp {α β : Type _} {c : α → α → Int} (h : LawfulCmp c)
    (f : β → α) : LawfulCmp (fun x y => c (f x) (f y)) := by
  constructor
  · intro x y; exact h.neg (f x) (f y)
  · intro x y z h1 h2; exact h.le_trans (f x) (f y) (f z) h1 h2

theorem LawfulCmp.negCmp {α : Type _} {c : α → α → Int} (h : LawfulCmp c) :
    LawfulCmp (fun x y => -(c x y)) := by
  constructor
  · intro x y; have := h.neg x y; omega
  · intro x y z h1 h2
    have h1' : c z y ≤ 0 := by have := h.neg y z; omega
    have h2' : c y x ≤ 0 := by have := h.neg x y; omega
    have := h.le_trans z y x h1' h2'
    have := h.neg x z; omega

theorem lawful_zeroCmp {α : Type _} : LawfulCmp (fun _ _ : α => (0 : Int)) := by
  constructor
  · intro _ _; omega
  · intro _ _ _ h1 h2; omega

theorem lawful_lexCmp {α : Type _} {c d : α → α → Int} (hc : LawfulCmp c)
    (hd : LawfulCmp d) : LawfulCmp (lexCmp c d) := by
  constructor
  · intro x y
    unfold lexCmp
    by_cases h : c x y = 0
    · have h' : c y x = 0 := by have := hc.neg x y; omega
      simp [h, h']
      exact hd.neg x y
    · have h' : c y x ≠ 0 := by have := hc.neg x y; omega
      simp [h, h']
      exact hc.neg x y
  · intro x y z hxy hyz
    unfold lexCmp at hxy hyz ⊢
    by_cases h1 : c x y = 0 <;> by_cases h2 : c y z = 0
    · have hxz : c x z ≤ 0 := hc.le_trans x y z (le_of_eq h1) (le_of_eq h2)
      have hzx : c z x ≤ 0 := by
        have h1' : c y x ≤ 0 := by have := hc.neg x y; omega
        have h2' : c z y ≤ 0 := by have := hc.neg y z; omega
        exact hc.le_trans z y x h2' h1'
      have hxz0 : c x z = 0 := by have := hc.neg x z; omega
      simp [h1, h2, hxz0] at hxy hyz ⊢
      exact hd.le_trans x y z hxy hyz
    · have hyz' : c y z < 0 := by
        simp [h2] at hyz; omega
      have hlt : c x z < 0 := hc.lt_of_le_of_lt (le_of_eq h1) hyz'
      simp [hlt.ne, le_of_lt hlt]
    · have hxy' : c x y < 0 := by
        simp [h1] at hxy; omega
      have hlt : c x z < 0 := hc.lt_of_lt_of_le hxy' (le_of_eq h2)
      simp [hlt.ne, le_of_lt hlt]
    · have hxy' : c x y < 0 := by
        simp [h1] at hxy; omega
      have hyz' : c y z < 0 := by
        simp [h2] at hyz; omega
      have hlt : c x z < 0 := hc.lt_of_lt_of_le hxy' (le_of_lt hyz')
      simp [hlt.ne, le_of_lt hlt]

theorem cmpChars_neg : ∀ (a b : List Char), cmpChars a b = -(cmpChars b a) := by
  intro a
  induction a with
  | nil =>
    intro b
    cases b with
    | nil => rfl
    | cons y ys => rfl
  | cons x xs ih =>
    intro b
    cases b with
    | nil => rfl
    | cons y ys =>
      rcases Nat.lt_trichotomy x.toNat y.toNat with h | h | h
      · simp [cmpChars, h, Nat.lt_asymm h]
      · simp [cmpChars, h, Nat.lt_irrefl, ih ys]
      · simp [cmpChars, h, Nat.lt_asymm h]

theorem cmpChars_nil_le : ∀ (c : List Char), cmpChars [] c ≤ 0 := by
  intro c
  cases c with
  | nil => simp [cmpChars]
  | cons z zs => simp [cmpChars]

theorem cmpChars_le_trans : ∀ (a b c : List Char),
    cmpChars a b ≤ 0 → cmpChars b c ≤ 0 → cmpChars a c ≤ 0 := by
  intro a
  induction a with
  | nil =>
    intro b c _ _
    exact cmpChars_nil_le c
  | cons x xs ih =>
    intro b c h1 h2
    cases b with
    | nil => simp [cmpChars] at h1
    | cons y ys =>
      cases c with
      | nil => simp [cmpChars] at h2
      | cons z zs =>
        simp only [cmpChars] at h1 h2 ⊢
        by_cases hxy : x.toNat < y.toNat
        · by_cases hyz : y.toNat < z.toNat
          · rw [if_pos (Nat.lt_trans hxy hyz)]; omega
          · rw [if_neg hyz] at h2
            by_cases hzy : z.toNat < y.toNat
            · rw [if_pos hzy] at h2; omega
            · have hyz' : y.toNat = z.toNat := by omega
              rw [if_pos (hyz' ▸ hxy)]; omega
        · rw [if_neg hxy] at h1
          by_cases hyx : y.toNat < x.toNat
          · rw [if_pos hyx] at h1; omega
          · rw [if_neg hyx] at h1
            by_cases hyz : y.toNat < z.toNat
            · rw [if_pos (by omega : x.toNat < z.toNat)]; omega
            · rw [if_neg hyz] at h2
              by_cases hzy : z.toNat < y.toNat
              · rw [if_pos hzy] at h2; omega
              · rw [if_neg hzy] at h2
                rw [if_neg (by omega : ¬x.toNat < z.toNat),
                  if_neg (by omega : ¬z.toNat < x.toNat)]
                exact ih ys zs h1 h2

theorem lawful_cmpChars : LawfulCmp (fun a b => cmpChars a b) := by
  constructor
  · intro x y; exact cmpChars_neg x y
  · intro x y z; exact cmpChars_le_trans x y z

theorem lawful_cmpStr : LawfulCmp (fun a b => cmpStr a b) :=
  LawfulCmp.ofEq (fun _ _ => rfl)
    (lawful_cmpChars.comp (fun s : String => s.data))

theorem lawful_pyCmp : LawfulCmp pyCmp := by
  unfold pyCmp
  exact lawful_lexCmp (lawful_cmpOf.comp rank)
    (lawful_lexCmp (lawful_cmpOf.comp payloadInt)
      (lawful_cmpStr.comp payloadStr))

/-! ## Lemmas: the multi-key comparator `cmpRows` -/

theorem cmpRows_nil (env : Env) (x y : Row) : cmpRows env [] x y = 0 := rfl

theorem cmpRows_cons (env : Env) (name : String) (reverse : Bool)
    (rest : List (String × Bool)) (x y : Row) :
    cmpRows env ((name, reverse) :: rest) x y =
      lexCmp
        (fun x y =>
          if reverse then
            -(pyCmp (resolveForCmp env x name) (resolveForCmp env y name))
          else pyCmp (resolveForCmp env x name) (resolveForCmp env y name))
        (cmpRows env rest) x y := by
  simp only [cmpRows, lexCmp]
  cases reverse <;>
    by_cases h : pyCmp (resolveForCmp env x name) (resolveForCmp env y name) = 0 <;>
    simp [h]

theorem lawful_cmpRows (env : Env) (instr : List (String × Bool)) :
    LawfulCmp (cmpRows env instr) := by
  induction instr with
  | nil => exact LawfulCmp.ofEq (fun x y => cmpRows_nil env x y) lawful_zeroCmp
  | cons i rest ih =>
    obtain ⟨name, reverse⟩ := i
    refine LawfulCmp.ofEq (fun x y => cmpRows_cons env name reverse rest x y) ?_
    refine lawful_lexCmp ?_ ih
    cases reverse
    · simpa using lawful_pyCmp.comp (fun r => resolveForCmp env r name)
    · simpa using (lawful_pyCmp.comp (fun r => resolveForCmp env r name)).negCmp

theorem cmpRows_single_asc (env : Env) (name : String) (x y : Row) :
    cmpRows env [(name, false)] x y =
      pyCmp (resolveForCmp env x name) (resolveForCmp env y name) := by
  simp only [cmpRows]
  by_cases h : pyCmp (resolveForCmp env x name) (resolveForCmp env y name) = 0 <;>
    simp [h]

theorem cmpRows_single_desc (env : Env) (name : String) (x y : Row) :
    cmpRows env [(name, true)] x y =
      -(pyCmp (resolveForCmp env x name) (resolveForCmp env y name)) := by
  simp only [cmpRows]
  by_cases h : pyCmp (resolveForCmp env x name) (resolveForCmp env y name) = 0 <;>
    simp [h]

/-! ## Lemmas: totality and transitivity of the sort relations -/

theorem rowLe_total (env : Env) (instr : List (String × Bool)) :
    IsTotal Row (rowLe env instr) :=
  ⟨fun x y => (lawful_cmpRows env instr).le_or_le x y⟩

theorem rowLe_trans (env : Env) (instr : List (String × Bool)) :
    IsTrans Row (rowLe env instr) :=
  ⟨fun x y z h1 h2 => (lawful_cmpRows env instr).le_trans x y z h1 h2⟩

theorem idLe_total (env : Env) (instr : List (String × Bool)) (store : Store) :
    IsTotal Nat (idLe env instr store) :=
  ⟨fun i j => ((lawful_cmpRows env instr).comp store).le_or_le i j⟩

theorem idLe_trans (env : Env) (instr : List (String × Bool)) (store : Store) :
    IsTrans Nat (idLe env instr store) :=
  ⟨fun i j k h1 h2 => ((lawful_cmpRows env instr).comp store).le_trans i j k h1 h2⟩

/-- A permutation that is pairwise ordered by an asymmetric relation on both
sides is unique: the strictly sorted arrangement of a list is determined. -/
theorem eq_of_perm_of_pairwise_asymm {α : Type _} {R : α → α → Prop}
    (hasymm : ∀ x y, R x y → R y x → False) :
    ∀ {l₁ l₂ : List α}, l₁.Perm l₂ → l₁.Pairwise R → l₂.Pairwise R → l₁ = l₂ := by
  intro l₁
  induction l₁ with
  | nil =>
    intro l₂ hp _ _
    exact (List.Perm.nil_eq hp).symm ▸ rfl
  | cons x xs ih =>
    intro l₂ hp h₁ h₂
    cases l₂ with
    | nil => exact absurd hp.symm (by simp)
    | cons y ys =>
      by_cases hxy : x = y
      · subst hxy
        have ht : xs.Perm ys := hp.cons_inv
        rw [ih ht (List.pairwise_cons.mp h₁).2 (List.pairwise_cons.mp h₂).2]
      · have hx2 : x ∈ y :: ys := hp.mem_iff.mp (List.mem_cons_self x xs)
        have hx : x ∈ ys := by
          rcases List.mem_cons.mp hx2 with h | h
          · exact absurd h hxy
          · exact h
        have hy2 : y ∈ x :: xs := hp.symm.mem_iff.mp (List.mem_cons_self y ys)
        have hy : y ∈ xs := by
          rcases List.mem_cons.mp hy2 with h | h
          · exact absurd h.symm hxy
          · exact h
        have hRxy : R x y := (List.pairwise_cons.mp h₁).1 y hy
        have hRyx : R y x := (List.pairwise_cons.mp h₂).1 x hx
        exact absurd hRyx (fun h => hasymm x y hRxy h)

/-! ## Lemmas: association lists -/

theorem odKeys_nil {α : Type _} : odKeys ([] : List (String × α)) = [] := rfl

theorem odKeys_cons {α : Type _} (k : String) (v : α) (r : List (String × α)) :
    odKeys ((k, v) :: r) = k :: odKeys r := rfl

theorem mem_odKeys_cons {α : Type _} (k k' : String) (v : α)
    (r : List (String × α)) :
    k' ∈ odKeys ((k, v) :: r) ↔ k' = k ∨ k' ∈ odKeys r := by
  rw [odKeys_cons]; exact List.mem_cons

theorem dictGet_dictSet_self {α : Type _} (m : List (String × α)) (k : String)
    (v : α) : dictGet (dictSet m k v) k = some v := by
  induction m with
  | nil => simp [dictGet, dictSet]
  | cons p r ih =>
    obtain ⟨k', v'⟩ := p
    by_cases h : k' = k
    · simp [dictGet, dictSet, h]
    · simp [dictGet, dictSet, h, ih]

theorem dictGet_dictSet_ne {α : Type _} (m : List (String × α)) {k k' : String}
    (v : α) (h : k' ≠ k) : dictGet (dictSet m k v) k' = dictGet m k' := by
  induction m with
  | nil => simp [dictGet, dictSet, Ne.symm h]
  | cons p r ih =>
    obtain ⟨k₀, v₀⟩ := p
    by_cases h0 : k₀ = k
    · subst h0
      have h1 : ¬k₀ = k' := Ne.symm h
      simp [dictGet, dictSet, h1]
    · by_cases h1 : k₀ = k'
      · simp [dictGet, dictSet, h0, h1, h]
      · simp [dictGet, dictSet, h0, h1, ih]

theorem mem_odKeys_iff_dictGet {α : Type _} (m : List (String × α))
    (k : String) : k ∈ odKeys m ↔ (dictGet m k).isSome := by
  induction m with
  | nil => simp [odKeys_nil, dictGet]
  | cons p r ih =>
    obtain ⟨k₀, v₀⟩ := p
    rw [mem_odKeys_cons]
    by_cases h : k₀ = k
    · simp [dictGet, h]
    · have h' : ¬k = k₀ := fun hc => h hc.symm
      simp only [dictGet, if_neg h, h', false_or]
      exact ih

theorem dictGet_none_of_notMem {α : Type _} (l : List (String × α))
    {k : String} (h : ¬k ∈ odKeys l) : dictGet l k = none := by
  cases hd : dictGet l k with
  | none => rfl
  | some v =>
    exact absurd ((mem_odKeys_iff_dictGet l k).mpr (by simp [hd])) h

theorem odKeys_dictSet_mem {α : Type _} (m : List (String × α)) {k : String}
    (v : α) (h : k ∈ odKeys m) : odKeys (dictSet m k v) = odKeys m := by
  induction m with
  | nil => simp [odKeys_nil] at h
  | cons p r ih =>
    obtain ⟨k₀, v₀⟩ := p
    by_cases h0 : k₀ = k
    · simp [dictSet, h0, odKeys_cons]
    · have hr : k ∈ odKeys r := by
        rcases (mem_odKeys_cons k₀ k v₀ r).mp h with hc | hc
        · exact absurd hc.symm h0
        · exact hc
      rw [dictSet, if_neg h0, odKeys_cons, odKeys_cons, ih hr]

theorem odKeys_dictSet_notMem {α : Type _} (m : List (String × α)) {k : String}
    (v : α) (h : ¬k ∈ odKeys m) : odKeys (dictSet m k v) = odKeys m ++ [k] := by
  induction m with
  | nil => simp [odKeys_nil, odKeys_cons, dictSet]
  | cons p r ih =>
    obtain ⟨k₀, v₀⟩ := p
    have h0 : ¬k₀ = k := fun hc => h ((mem_odKeys_cons k₀ k v₀ r).mpr (Or.inl hc.symm))
    have hr : ¬k ∈ odKeys r := fun hc => h ((mem_odKeys_cons k₀ k v₀ r).mpr (Or.inr hc))
    rw [dictSet, if_neg h0, odKeys_cons, odKeys_cons, ih hr]
    rfl

theorem dictSet_notMem_append {α : Type _} (m : List (String × α)) {k : String}
    (v : α) (h : ¬k ∈ odKeys m) : dictSet m k v = m ++ [(k, v)] := by
  induction m with
  | nil => simp [dictSet]
  | cons p r ih =>
    obtain ⟨k₀, v₀⟩ := p
    have h0 : ¬k₀ = k := fun hc => h ((mem_odKeys_cons k₀ k v₀ r).mpr (Or.inl hc.symm))
    have hr : ¬k ∈ odKeys r := fun hc => h ((mem_odKeys_cons k₀ k v₀ r).mpr (Or.inr hc))
    rw [dictSet, if_neg h0, ih hr]
    rfl

theorem mem_odKeys_dictSet {α : Type _} (m : List (String × α)) (k k' : String)
    (v : α) : k' ∈ odKeys (dictSet m k v) ↔ k' ∈ odKeys m ∨ k' = k := by
  by_cases h : k ∈ odKeys m
  · rw [odKeys_dictSet_mem m v h]
    constructor
    · exact fun hc => Or.inl hc
    · rintro (hc | hc)
      · exact hc
      · exact hc ▸ h
  · rw [odKeys_dictSet_notMem m v h]
    simp

theorem odUpdate_nil {α : Type _} (m : List (String × α)) :
    odUpdate m [] = m := rfl

theorem odUpdate_cons {α : Type _} (m : List (String × α)) (k : String) (v : α)
    (rest : List (String × α)) :
    odUpdate m ((k, v) :: rest) = odUpdate (dictSet m k v) rest := rfl

theorem dictGet_odUpdate_notMem {α : Type _} (l : List (String × α)) :
    ∀ (m : List (String × α)) (k : String), ¬k ∈ l.map Prod.fst →
    dictGet (odUpdate m l) k = dictGet m k := by
  induction l with
  | nil => intro m k _; rw [odUpdate_nil]
  | cons p rest ih =>
    intro m k h
    obtain ⟨k₀, v₀⟩ := p
    have h0 : k₀ ≠ k := fun hc => h (by simp [hc])
    have hr : ¬k ∈ rest.map Prod.fst := fun hc => h (by simp [hc])
    rw [odUpdate_cons, ih (dictSet m k₀ v₀) k hr,
      dictGet_dictSet_ne m v₀ (Ne.symm h0)]

theorem dictGet_odUpdate_mem {α : Type _} (l : List (String × α)) :
    ∀ (m : List (String × α)) (k : String) (v : α),
    (l.map Prod.fst).Nodup → (k, v) ∈ l →
    dictGet (odUpdate m l) k = some v := by
  induction l with
  | nil => intro m k v _ hm; simp at hm
  | cons p rest ih =>
    intro m k v hnd hm
    obtain ⟨k₀, v₀⟩ := p
    have hnd' : (rest.map Prod.fst).Nodup := (List.nodup_cons.mp hnd).2
    rcases List.mem_cons.mp hm with hc | hc
    · obtain ⟨hk, hv⟩ := Prod.mk.inj hc
      subst hk; subst hv
      have hrest : ¬k ∈ rest.map Prod.fst := (List.nodup_cons.mp hnd).1
      rw [odUpdate_cons, dictGet_odUpdate_notMem rest _ k hrest,
        dictGet_dictSet_self]
    · rw [odUpdate_cons]
      exact ih (dictSet m k₀ v₀) k v hnd' hc

theorem mem_odKeys_odUpdate {α : Type _} (l : List (String × α)) :
    ∀ (m : List (String × α)) (k : String),
    k ∈ odKeys (odUpdate m l) ↔ k ∈ odKeys m ∨ k ∈ l.map Prod.fst := by
  induction l with
  | nil => intro m k; rw [odUpdate_nil]; simp
  | cons p rest ih =>
    intro m k
    obtain ⟨k₀, v₀⟩ := p
    rw [odUpdate_cons, ih (dictSet m k₀ v₀) k, mem_odKeys_dictSet]
    simp only [List.map_cons, List.mem_cons]
    constructor
    · rintro ((h | h) | h)
      · exact Or.inl h
      · exact Or.inr (Or.inl h)
      · exact Or.inr (Or.inr h)
    · rintro (h | h | h)
      · exact Or.inl (Or.inl h)
      · exact Or.inl (Or.inr h)
      · exact Or.inr h

theorem odKeys_odUpdate_nodup {α : Type _} (l : List (String × α)) :
    ∀ (m : List (String × α)), (l.map Prod.fst).Nodup →
    odKeys (odUpdate m l) =
      odKeys m ++ (l.map Prod.fst).filter (fun k => decide (¬k ∈ odKeys m)) := by
  induction l with
  | nil => intro m _; rw [odUpdate_nil]; simp
  | cons p rest ih =>
    intro m hnd
    obtain ⟨k₀, v₀⟩ := p
    have hnd' : (rest.map Prod.fst).Nodup := (List.nodup_cons.mp hnd).2
    have hk₀ : ¬k₀ ∈ rest.map Prod.fst := (List.nodup_cons.mp hnd).1
    rw [odUpdate_cons, ih (dictSet m k₀ v₀) hnd']
    show _ = odKeys m ++ List.filter _ (k₀ :: rest.map Prod.fst)
    rw [List.filter_cons]
    by_cases h : k₀ ∈ odKeys m
    · rw [odKeys_dictSet_mem m v₀ h]
      have hdec : decide (¬k₀ ∈ odKeys m) = false := by simp [h]
      rw [hdec]
      simp
    · rw [odKeys_dictSet_notMem m v₀ h]
      have hdec : decide (¬k₀ ∈ odKeys m) = true := by simp [h]
      rw [hdec]
      have hfilter :
          (rest.map Prod.fst).filter (fun k => decide (¬k ∈ odKeys m ++ [k₀])) =
          (rest.map Prod.fst).filter (fun k => decide (¬k ∈ odKeys m)) := by
        apply List.filter_congr
        intro k hk
        have hne : k ≠ k₀ := fun hc => hk₀ (hc ▸ hk)
        simp [hne]
      rw [hfilter]
      simp

theorem odFromList_eq_odUpdate {α : Type _} (l : List (String × α)) :
    odFromList l = odUpdate [] l := rfl

theorem odUpdate_disjoint {α : Type _} (l : List (String × α)) :
    ∀ (m : List (String × α)), (l.map Prod.fst).Nodup →
    (∀ k ∈ l.map Prod.fst, ¬k ∈ odKeys m) → odUpdate m l = m ++ l := by
  induction l with
  | nil => intro m _ _; rw [odUpdate_nil]; simp
  | cons p rest ih =>
    intro m hnd hdisj
    obtain ⟨k₀, v₀⟩ := p
    have hnd' : (rest.map Prod.fst).Nodup := (List.nodup_cons.mp hnd).2
    have hk₀m : ¬k₀ ∈ odKeys m := hdisj k₀ (by simp)
    have hk₀rest : ¬k₀ ∈ rest.map Prod.fst := (List.nodup_cons.mp hnd).1
    rw [odUpdate_cons, dictSet_notMem_append m v₀ hk₀m]
    rw [ih (m ++ [(k₀, v₀)]) hnd' ?_]
    · simp
    · intro k hk
      have hne : k ≠ k₀ := fun hc => hk₀rest (hc ▸ hk)
      have hkm : ¬k ∈ odKeys m := hdisj k (by simp [hk])
      intro hc
      rcases (by simpa [odKeys] using hc : k ∈ odKeys m ∨ k = k₀) with hd | hd
      · exact hkm hd
      · exact hne hd

theorem odFromList_nodup {α : Type _} (l : List (String × α))
    (hnd : (l.map Prod.fst).Nodup) : odFromList l = l := by
  rw [odFromList_eq_odUpdate,
    odUpdate_disjoint l [] hnd (by simp [odKeys_nil])]
  simp

theorem dictGet_of_mem_nodup {α : Type _} {l : List (String × α)} {k : String}
    {v : α} (hnd : (l.map Prod.fst).Nodup) (hm : (k, v) ∈ l) :
    dictGet l k = some v := by
  induction l with
  | nil => simp at hm
  | cons p rest ih =>
    obtain ⟨k₀, v₀⟩ := p
    rcases List.mem_cons.mp hm with hc | hc
    · obtain ⟨hk, hv⟩ := Prod.mk.inj hc
      subst hk; subst hv
      simp [dictGet]
    · have hk₀ : k₀ ≠ k := by
        intro hc0
        subst hc0
        have := (List.nodup_cons.mp hnd).1
        exact this (by simpa using List.mem_map_of_mem Prod.fst hc)
      have hnd' : (rest.map Prod.fst).Nodup := (List.nodup_cons.mp hnd).2
      simp [dictGet, hk₀, ih hnd' hc]

/-! ## Lemmas: ordering tokens -/

theorem stripMinus_addMinus (s : String) : stripMinus (addMinus s) = s := by
  cases s with
  | mk data => rfl

theorem startsWithMinus_addMinus (s : String) :
    startsWithMinus (addMinus s) = true := by
  cases s with
  | mk data => rfl

theorem stripMinus_of_not_minus {t : String} (h : startsWithMinus t = false) :
    stripMinus t = t := by
  cases t with
  | mk data =>
    cases data with
    | nil => rfl
    | cons c rest =>
      by_cases hc : c = '-'
      · subst hc
        simp [startsWithMinus] at h
      · simp only [stripMinus]
        split
        · rename_i heq
          injection heq with h1 _
          exact absurd h1 hc
        · rfl

theorem toggleMinus_of_minus (s : String) :
    toggleMinus (addMinus s) = s := by
  cases s with
  | mk data => rfl

theorem toggleMinus_of_not_minus {t : String} (h : startsWithMinus t = false) :
    toggleMinus t = addMinus t := by
  cases t with
  | mk data =>
    cases data with
    | nil => rfl
    | cons c rest =>
      by_cases hc : c = '-'
      · subst hc
        simp [startsWithMinus] at h
      · simp only [toggleMinus, addMinus]
        split
        · rename_i heq
          injection heq with h1 _
          exact absurd h1 hc
        · rfl

theorem parseInstructions_cons_minus (s : String) (rest : List String) :
    parseInstructions (addMinus s :: rest) =
      (s, true) :: parseInstructions rest := by
  simp [parseInstructions, startsWithMinus_addMinus, stripMinus_addMinus]

theorem parseInstructions_cons_plain {s : String}
    (h : startsWithMinus s = false) (rest : List String) :
    parseInstructions (s :: rest) = (s, false) :: parseInstructions rest := by
  simp [parseInstructions, h]

/-! ## Lemmas: the defaulting pass of `_build_snapshot` -/

theorem fillRow_nil (denv : Env) (row : Row) : fillRow denv [] row = row := rfl

theorem fillRow_cons (denv : Env) (nc : String × Column)
    (cols : List (String × Column)) (row : Row) :
    fillRow denv (nc :: cols) row = fillRow denv cols (fillStep denv row nc) :=
  rfl

theorem fillStep_keeps {denv : Env} {row : Row} {s : String} {v : Cell}
    (nc : String × Column) (hget : dictGet row s = some v)
    (hv : v ≠ Cell.cnone) : dictGet (fillStep denv row nc) s = some v := by
  unfold fillStep
  by_cases hs : srcAccessor nc.1 nc.2 = s
  · subst hs
    have : (dictGet row (srcAccessor nc.1 nc.2)).getD Cell.cnone ≠ Cell.cnone := by
      rw [hget]; simpa using hv
    rw [if_neg this]
    exact hget
  · by_cases hc : (dictGet row (srcAccessor nc.1 nc.2)).getD Cell.cnone = Cell.cnone
    · rw [if_pos hc, dictGet_dictSet_ne row _ (fun h => hs h.symm)]
      exact hget
    · rw [if_neg hc]
      exact hget

theorem fillRow_keeps {denv : Env} {s : String} {v : Cell}
    (cols : List (String × Column)) (hv : v ≠ Cell.cnone) :
    ∀ {row : Row}, dictGet row s = some v →
    dictGet (fillRow denv cols row) s = some v := by
  induction cols with
  | nil => intro row h; exact h
  | cons nc rest ih =>
    intro row h
    rw [fillRow_cons]
    exact ih (fillStep_keeps nc h hv)

theorem fillStep_presence {denv : Env} {row : Row} {s : String}
    (nc : String × Column) (h : dictGet row s ≠ none) :
    dictGet (fillStep denv row nc) s ≠ none := by
  unfold fillStep
  by_cases hc : (dictGet row (srcAccessor nc.1 nc.2)).getD Cell.cnone = Cell.cnone
  · rw [if_pos hc]
    by_cases hs : srcAccessor nc.1 nc.2 = s
    · subst hs
      rw [dictGet_dictSet_self]
      simp
    · rw [dictGet_dictSet_ne row _ (fun hh => hs hh.symm)]
      exact h
  · rw [if_neg hc]
    exact h

theorem fillRow_presence {denv : Env} {s : String}
    (cols : List (String × Column)) :
    ∀ {row : Row}, dictGet row s ≠ none →
    dictGet (fillRow denv cols row) s ≠ none := by
  induction cols with
  | nil => intro row h; exact h
  | cons nc rest ih =>
    intro row h
    rw [fillRow_cons]
    exact ih (fillStep_presence nc h)

theorem fillRow_covers {denv : Env} (cols : List (String × Column)) :
    ∀ {row : Row} (nc : String × Column), nc ∈ cols →
    dictGet (fillRow denv cols row) (srcAccessor nc.1 nc.2) ≠ none := by
  induction cols with
  | nil => intro row nc h; simp at h
  | cons c rest ih =>
    intro row nc h
    rcases List.mem_cons.mp h with hc | hc
    · subst hc
      rw [fillRow_cons]
      apply fillRow_presence rest
      unfold fillStep
      by_cases hcond :
          (dictGet row (srcAccessor nc.1 nc.2)).getD Cell.cnone = Cell.cnone
      · rw [if_pos hcond, dictGet_dictSet_self]
        simp
      · rw [if_neg hcond]
        intro hnone
        rw [hnone] at hcond
        exact hcond rfl
    · rw [fillRow_cons]
      exact ih nc hc

/-- Every column of `cols` that is backed by the accessor `s` has no
default: under this condition the defaulting pass can only ever write
`None` at `s`. -/
def NoDefaultAt (s : String) (cols : List (String × Column)) : Prop :=
  ∀ nc ∈ cols, srcAccessor nc.1 nc.2 = s → nc.2.default = none

theorem fillStep_absent_inv {denv : Env} {row : Row} {s : String}
    {nc : String × Column}
    (hnd : srcAccessor nc.1 nc.2 = s → nc.2.default = none)
    (h : (dictGet row s).getD Cell.cnone = Cell.cnone) :
    (dictGet (fillStep denv row nc) s).getD Cell.cnone = Cell.cnone := by
  unfold fillStep
  by_cases hc : (dictGet row (srcAccessor nc.1 nc.2)).getD Cell.cnone = Cell.cnone
  · rw [if_pos hc]
    by_cases hs : srcAccessor nc.1 nc.2 = s
    · rw [hs, dictGet_dictSet_self]
      rw [get_default, hnd hs]
      rfl
    · rw [dictGet_dictSet_ne row _ (fun hh => hs hh.symm)]
      exact h
  · rw [if_neg hc]
    exact h

theorem fillStep_cnone_inv {denv : Env} {row : Row} {s : String}
    {nc : String × Column}
    (hnd : srcAccessor nc.1 nc.2 = s → nc.2.default = none)
    (h : dictGet row s = some Cell.cnone) :
    dictGet (fillStep denv row nc) s = some Cell.cnone := by
  unfold fillStep
  by_cases hc : (dictGet row (srcAccessor nc.1 nc.2)).getD Cell.cnone = Cell.cnone
  · rw [if_pos hc]
    by_cases hs : srcAccessor nc.1 nc.2 = s
    · rw [hs, dictGet_dictSet_self]
      rw [get_default, hnd hs]
    · rw [dictGet_dictSet_ne row _ (fun hh => hs hh.symm)]
      exact h
  · rw [if_neg hc]
    exact h

theorem fillRow_cnone_inv {denv : Env} {s : String}
    (cols : List (String × Column)) (hnd : NoDefaultAt s cols) :
    ∀ {row : Row}, dictGet row s = some Cell.cnone →
    dictGet (fillRow denv cols row) s = some Cell.cnone := by
  induction cols with
  | nil => intro row h; exact h
  | cons c rest ih =>
    intro row h
    rw [fillRow_cons]
    exact ih (fun nc hm hs => hnd nc (List.mem_cons_of_mem c hm) hs)
      (fillStep_cnone_inv (hnd c (List.mem_cons_self c rest)) h)

theorem fillRow_no_default {denv : Env} {s : String}
    (cols : List (String × Column)) (hnd : NoDefaultAt s cols) :
    ∀ {row : Row} (nc : String × Column), nc ∈ cols →
    srcAccessor nc.1 nc.2 = s →
    (dictGet row s).getD Cell.cnone = Cell.cnone →
    dictGet (fillRow denv cols row) s = some Cell.cnone := by
  induction cols with
  | nil => intro row nc h; simp at h
  | cons c rest ih =>
    intro row nc hm hs habs
    have hndrest : NoDefaultAt s rest :=
      fun nc' hm' hs' => hnd nc' (List.mem_cons_of_mem c hm') hs'
    rw [fillRow_cons]
    by_cases hcs : srcAccessor c.1 c.2 = s
    · apply fillRow_cnone_inv rest hndrest
      unfold fillStep
      rw [hcs, if_pos habs, dictGet_dictSet_self, get_default,
        hnd c (List.mem_cons_self c rest) hcs]
    · have hnc : nc ∈ rest := by
        rcases List.mem_cons.mp hm with hc | hc
        · exact absurd (hc ▸ hs) hcs
        · exact hc
      have habs' : (dictGet (fillStep denv row c) s).getD Cell.cnone = Cell.cnone :=
        fillStep_absent_inv (fun hh => absurd hh hcs) habs
      exact ih hndrest nc hnc hs habs'

theorem fillDefaults_nil (denv : Env) (cols : List (String × Column))
    (store : Store) : fillDefaults denv cols store [] = store := rfl

theorem fillDefaults_cons (denv : Env) (cols : List (String × Column))
    (store : Store) (i : Nat) (rest : List Nat) :
    fillDefaults denv cols store (i :: rest) =
      fillDefaults denv cols
        (Function.update store i (fillRow denv cols (store i))) rest := rfl

theorem fillDefaults_frame {denv : Env} {cols : List (String × Column)}
    (ids : List Nat) :
    ∀ (store : Store) (j : Nat), ¬j ∈ ids →
    fillDefaults denv cols store ids j = store j := by
  induction ids with
  | nil => intro store j _; rfl
  | cons i rest ih =>
    intro store j hj
    have hji : j ≠ i := fun hc => hj (hc ▸ List.mem_cons_self i rest)
    have hjr : ¬j ∈ rest := fun hc => hj (List.mem_cons_of_mem i hc)
    rw [fillDefaults_cons, ih _ j hjr, Function.update_noteq hji]

theorem fillDefaults_preserves {denv : Env} {cols : List (String × Column)}
    {P : Row → Prop} (hP : ∀ r, P r → P (fillRow denv cols r))
    (ids : List Nat) :
    ∀ (store : Store) (i : Nat), P (store i) →
    P (fillDefaults denv cols store ids i) := by
  induction ids with
  | nil => intro store i h; exact h
  | cons j rest ih =>
    intro store i h
    rw [fillDefaults_cons]
    apply ih
    by_cases hij : i = j
    · subst hij
      rw [Function.update_same]
      exact hP _ h
    · rw [Function.update_noteq hij]
      exact h

theorem fillDefaults_covers {denv : Env} {cols : List (String × Column)}
    (ids : List Nat) :
    ∀ (store : Store) (i : Nat), i ∈ ids → ∀ nc ∈ cols,
    dictGet (fillDefaults denv cols store ids i) (srcAccessor nc.1 nc.2) ≠
      none := by
  induction ids with
  | nil => intro store i h; simp at h
  | cons j rest ih =>
    intro store i hi nc hnc
    rw [fillDefaults_cons]
    by_cases hij : i = j
    · subst hij
      apply fillDefaults_preserves
        (P := fun r => dictGet r (srcAccessor nc.1 nc.2) ≠ none)
        (fun r h => fillRow_presence cols h)
      rw [Function.update_same]
      exact fillRow_covers cols nc hnc
    · have hir : i ∈ rest := by
        rcases List.mem_cons.mp hi with hc | hc
        · exact absurd hc hij
        · exact hc
      exact ih _ i hir nc hnc

theorem fillDefaults_keeps {denv : Env} {cols : List (String × Column)}
    {s : String} {v : Cell} (hv : v ≠ Cell.cnone) (ids : List Nat)
    (store : Store) (i : Nat) (h : dictGet (store i) s = some v) :
    dictGet (fillDefaults denv cols store ids i) s = some v :=
  fillDefaults_preserves (P := fun r => dictGet r s = some v)
    (fun _ hr => fillRow_keeps cols hv hr) ids store i h

theorem fillDefaults_no_default {denv : Env} {cols : List (String × Column)}
    {s : String} (hnd : NoDefaultAt s cols) {nc : String × Column}
    (hm : nc ∈ cols) (hs : srcAccessor nc.1 nc.2 = s) (ids : List Nat) :
    ∀ (store : Store) (i : Nat), i ∈ ids →
    (dictGet (store i) s).getD Cell.cnone = Cell.cnone →
    dictGet (fillDefaults denv cols store ids i) s = some Cell.cnone := by
  induction ids with
  | nil => intro store i h; simp at h
  | cons j rest ih =>
    intro store i hi habs
    rw [fillDefaults_cons]
    by_cases hij : i = j
    · subst hij
      apply fillDefaults_preserves
        (P := fun r => dictGet r s = some Cell.cnone)
        (fun r h => fillRow_cnone_inv cols hnd h)
      rw [Function.update_same]
      exact fillRow_no_default cols hnd nc hm hs habs
    · have hir : i ∈ rest := by
        rcases List.mem_cons.mp hi with hc | hc
        · exact absurd hc hij
        · exact hc
      apply ih _ i hir
      rw [Function.update_noteq hij]
      exact habs

/-! ## Lemmas: accessor-path resolution -/

theorem resolveBits_error_path (path : String) :
    ∀ (bits : List String) (cur : Value) (e : ResolutionError),
    resolveBits path bits cur = .error e → e.path = path := by
  intro bits
  induction bits with
  | nil => intro cur e h; simp [resolveBits] at h
  | cons bit rest ih =>
    intro cur e h
    by_cases hh : hasattrV cur bit
    · rw [resolveBits, if_pos hh] at h
      by_cases hn : isNoneV (invokeV (getattrV cur bit))
      · rw [if_pos hn] at h
        simp at h
      · rw [if_neg hn] at h
        exact ih _ e h
    · rw [resolveBits, if_neg hh] at h
      injection h with h1
      rw [← h1]

theorem resolveBits_missing {path bit : String} {cur : Value}
    (rest : List String) (h : hasattrV cur bit = false) :
    resolveBits path (bit :: rest) cur = .error ⟨bit, path⟩ := by
  rw [resolveBits, if_neg (by simp [h])]

theorem resolveBits_null_stop {path bit : String} {cur : Value}
    (rest : List String) (h : hasattrV cur bit = true)
    (hn : isNoneV (invokeV (getattrV cur bit)) = true) :
    resolveBits path (bit :: rest) cur = .ok Value.vnone := by
  rw [resolveBits, if_pos h]
  simp only [hn, if_pos]

theorem resolveBits_step {path bit : String} {cur : Value}
    (rest : List String) (h : hasattrV cur bit = true)
    (hn : isNoneV (invokeV (getattrV cur bit)) = false) :
    resolveBits path (bit :: rest) cur =
      resolveBits path rest (invokeV (getattrV cur bit)) := by
  rw [resolveBits, if_pos h]
  simp only [hn]
  rfl

/-! ## Lemmas: creation counters -/

theorem range'_pairwise_lt : ∀ (n s : Nat),
    (List.range' s n).Pairwise (· < ·) := by
  intro n
  induction n with
  | zero => intro s; simp
  | succ m ih =>
    intro s
    rw [List.range']
    refine List.pairwise_cons.mpr ⟨?_, ih (s + 1)⟩
    intro b hb
    have := (List.mem_range'_1.mp hb).1
    omega

theorem mkColumns_counters : ∀ (specs : List ColumnArgs) (start : Nat)
    (cols : List Column) (final : Nat),
    mkColumns specs start = .ok (cols, final) →
    cols.map Column.creation_counter = List.range' start cols.length ∧
      final = start + cols.length := by
  intro specs
  induction specs with
  | nil =>
    intro start cols final h
    rw [mkColumns] at h
    injection h with h1
    obtain ⟨h2, h3⟩ := Prod.mk.inj h1
    subst h2; subst h3
    simp
  | cons a rest ih =>
    intro start cols final h
    rw [mkColumns] at h
    cases hmk : mkColumn a start with
    | error e =>
      simp only [hmk] at h
      exact absurd h (by simp)
    | ok p =>
      obtain ⟨col, counter'⟩ := p
      simp only [hmk] at h
      cases hrest : mkColumns rest counter' with
      | error e =>
        simp only [hrest] at h
        exact absurd h (by simp)
      | ok q =>
        obtain ⟨cols', final'⟩ := q
        simp only [hrest] at h
        injection h with h1
        obtain ⟨h2, h3⟩ := Prod.mk.inj h1
        subst h2; subst h3
        have hcol : col.creation_counter = start ∧ counter' = start + 1 := by
          rw [mkColumn] at hmk
          cases hd : set_direction a.direction with
          | error e =>
            simp only [hd] at hmk
            exact absurd hmk (by simp)
          | ok d =>
            simp only [hd] at hmk
            injection hmk with hmk1
            obtain ⟨hc, hctr⟩ := Prod.mk.inj hmk1
            constructor
            · rw [← hc]
            · rw [← hctr]
        obtain ⟨hih1, hih2⟩ := ih counter' cols' final' hrest
        constructor
        · have hih1' : List.map Column.creation_counter cols' =
              List.range' (start + 1) cols'.length := by
            rw [← hcol.2]; exact hih1
          rw [List.map_cons, hcol.1, List.length_cons, hih1']
          rfl
        · rw [List.length_cons]
          omega

/-! ## Lemmas: registry assembly -/

theorem filterMap_if_eq_filter {α : Type _} (p : α → Bool) :
    ∀ (l : List α),
    l.filterMap (fun c => if p c then some c else none) = l.filter p := by
  intro l
  induction l with
  | nil => rfl
  | cons a rest ih =>
    rw [List.filterMap_cons, List.filter_cons]
    by_cases h : p a
    · simp [h, ih]
    · simp [h, ih]

theorem mapped_fst (declared : List (String × Column)) :
    (declared.map (fun p => (p.1, some p.2))).map Prod.fst =
      declared.map Prod.fst := by
  rw [List.map_map]
  rfl

theorem cfmLoop_keys (columns exclude : Option (List String)) :
    ∀ (fields : List Field) (acc : List (String × Option Column) × Nat)
      (x : String),
    x ∈ (fields.foldl (cfmStep columns exclude) acc).1.map Prod.fst →
    x ∈ acc.1.map Prod.fst ∨ x ∈ fields.map Field.name := by
  intro fields
  induction fields with
  | nil => intro acc x h; exact Or.inl h
  | cons f rest ih =>
    intro acc x h
    rw [List.foldl_cons] at h
    rcases ih (cfmStep columns exclude acc f) x h with hc | hc
    · unfold cfmStep at hc
      by_cases hcond : (truthy columns && !listHas columns f.name) ||
          (truthy exclude && listHas exclude f.name)
      · rw [if_pos hcond] at hc
        exact Or.inl hc
      · rw [if_neg hcond] at hc
        simp only [List.map_append, List.mem_append] at hc
        rcases hc with hc | hc
        · exact Or.inl hc
        · simp at hc
          exact Or.inr (by simp [hc])
    · exact Or.inr (by simp [hc])

theorem cfmLoop_excluded {exclude : Option (List String)}
    (columns : Option (List String)) {n : String}
    (htruthy : truthy exclude = true) (hhas : listHas exclude n = true) :
    ∀ (fields : List Field) (acc : List (String × Option Column) × Nat),
    ¬n ∈ acc.1.map Prod.fst →
    ¬n ∈ (fields.foldl (cfmStep columns exclude) acc).1.map Prod.fst := by
  intro fields
  induction fields with
  | nil => intro acc h; exact h
  | cons f rest ih =>
    intro acc h
    rw [List.foldl_cons]
    apply ih
    unfold cfmStep
    by_cases hcond : (truthy columns && !listHas columns f.name) ||
        (truthy exclude && listHas exclude f.name)
    · rw [if_pos hcond]
      exact h
    · rw [if_neg hcond]
      have hcond' : ((truthy columns && !listHas columns f.name) ||
          (truthy exclude && listHas exclude f.name)) = false := by
        cases hx : ((truthy columns && !listHas columns f.name) ||
            (truthy exclude && listHas exclude f.name))
        · rfl
        · exact absurd hx hcond
      have hfn : listHas exclude f.name = false := by
        have h2 := (Bool.or_eq_false_iff.mp hcond').2
        simpa [htruthy] using h2
      have hne : f.name ≠ n := by
        intro hc
        rw [hc, hhas] at hfn
        exact absurd hfn (by simp)
      simp only [List.map_append, List.mem_append]
      rintro (hc | hc)
      · exact h hc
      · simp at hc
        exact hne hc.symm

/-! ## Claim C1: accessor-path resolution -/

/-- **C1.** `BoundModelRow._default_render` traverses the accessor-path
segments in order; a segment that does not exist as an attribute of the
current object raises the resolution error naming that segment and the full
path; a segment whose (invoked) value is `None` stops traversal immediately
with "no value" and no error; a column with no default whose traversal ends
in `None` resolves to `None` without raising; every error surfaced names
the full accessor path; and resolution is a pure function of the record, so
repeated calls on the same record give the same outcome. -/
theorem C1_accessor_resolution :
    ∀ (path bit : String) (rest : List String) (cur : Value)
      (defaultOpt : Option (Value → Value)) (src : String) (record : Value),
    (hasattrV cur bit = false →
      resolveBits path (bit :: rest) cur = .error ⟨bit, path⟩) ∧
    (hasattrV cur bit = true → isNoneV (invokeV (getattrV cur bit)) = true →
      resolveBits path (bit :: rest) cur = .ok Value.vnone) ∧
    (hasattrV cur bit = true → isNoneV (invokeV (getattrV cur bit)) = false →
      resolveBits path (bit :: rest) cur =
        resolveBits path rest (invokeV (getattrV cur bit))) ∧
    (∀ e, default_render defaultOpt src record = .error e → e.path = src) ∧
    (defaultOpt = none →
      resolveBits src (pySplitDunder src) record = .ok Value.vnone →
      default_render defaultOpt src record = .ok Value.vnone) ∧
    (∀ record', record' = record →
      default_render defaultOpt src record' =
        default_render defaultOpt src record) := by
  intro path bit rest cur defaultOpt src record
  refine ⟨?_, ?_, ?_, ?_, ?_, ?_⟩
  · intro h
    exact resolveBits_missing rest h
  · intro h hn
    exact resolveBits_null_stop rest h hn
  · intro h hn
    exact resolveBits_step rest h hn
  · intro e h
    rw [default_render] at h
    cases hr : resolveBits src (pySplitDunder src) record with
    | error e' =>
      rw [hr] at h
      injection h with h1
      rw [← h1]
      exact resolveBits_error_path src (pySplitDunder src) record e' hr
    | ok v =>
      rw [hr] at h
      by_cases hn : isNoneV v
      · simp only [hn, if_pos] at h
        cases defaultOpt with
        | none => simp at h
        | some f => simp at h
      · simp only [hn] at h
        simp at h
  · intro hd hok
    rw [default_render, hok]
    simp [hd, isNoneV]
  · intro record' h
    rw [h]

/-- Witness for C1 on concrete records: a missing intermediate attribute
errors with the segment and full path, a null relation stops silently, and
a no-default column resolves to `None`. -/
theorem C1_witness :
    resolveBits "capital__population" ["capital", "population"]
      (Value.vobj []) = .error ⟨"capital", "capital__population"⟩ ∧
    resolveBits "capital__population" ["capital", "population"] exRecord =
      .ok Value.vnone ∧
    default_render none "capital__population" exRecord = .ok Value.vnone ∧
    default_render none "capital__population" exRecordFull =
      default_render none "capital__population" exRecordFull := by
  refine ⟨?_, ?_, ?_, ?_⟩
  · exact (C1_accessor_resolution "capital__population" "capital"
      ["population"] (Value.vobj []) none "x" Value.vnone).1 rfl
  · exact (C1_accessor_resolution "capital__population" "capital"
      ["population"] exRecord none "x" Value.vnone).2.1 rfl rfl
  · exact (C1_accessor_resolution "x" "x" [] Value.vnone none
      "capital__population" exRecord).2.2.2.2.1 rfl rfl
  · exact (C1_accessor_resolution "x" "x" [] Value.vnone none
      "capital__population" exRecordFull).2.2.2.2.2 exRecordFull rfl

/-! ## Claim C7: direction token validation -/

/-- Counterexample to **C7** as stated: the membership test of
`Column._set_direction` is case sensitive, so the string `"ASC"` — which is
case-insensitively `'asc'` (its lowercasing is exactly `"asc"`) — is not
accepted but raises `ValueError('Invalid direction value: ASC')`. -/
theorem C7_counterexample :
    set_direction (.str "ASC") = .error "Invalid direction value: ASC" ∧
    pyLower "ASC" = "asc" := by
  constructor
  · rfl
  · rfl

/-- **C7 (amended).** A string direction token is accepted exactly when it
is *literally* `'asc'` or `'desc'` (the check is case sensitive): `'asc'`
maps to the ascending constant and `'desc'` to the descending constant,
and any other string — including other casings of `asc`/`desc` — fails
construction with `ValueError('Invalid direction value: %s')`. -/
theorem C7_direction_token_exact :
    ∀ s : String,
    ((∃ d, set_direction (.str s) = .ok d) ↔ (s = "asc" ∨ s = "desc")) ∧
    set_direction (.str "asc") = .ok ASC ∧
    set_direction (.str "desc") = .ok DESC ∧
    (s ≠ "asc" → s ≠ "desc" →
      set_direction (.str s) = .error ("Invalid direction value: " ++ s)) := by
  intro s
  by_cases h1 : s = "asc"
  · subst h1
    refine ⟨⟨fun _ => Or.inl rfl, fun _ => ⟨ASC, rfl⟩⟩, rfl, rfl, ?_⟩
    intro hc _
    exact absurd rfl hc
  · by_cases h2 : s = "desc"
    · subst h2
      refine ⟨⟨fun _ => Or.inr rfl, fun _ => ⟨DESC, rfl⟩⟩, rfl, rfl, ?_⟩
      intro _ hc
      exact absurd rfl hc
    · have herr : set_direction (.str s) =
          .error ("Invalid direction value: " ++ s) := by
        show (if s = "asc" ∨ s = "desc" then
          Except.ok (if s = "asc" then ASC else DESC) else
          Except.error ("Invalid direction value: " ++ s)) = _
        rw [if_neg]
        rintro (h | h)
        · exact h1 h
        · exact h2 h
      refine ⟨⟨?_, ?_⟩, rfl, rfl, fun _ _ => herr⟩
      · rintro ⟨d, hd⟩
        rw [herr] at hd
        simp at hd
      · rintro (h | h)
        · exact absurd h h1
        · exact absurd h h2

/-- Witness for C7 (amended) at the concrete token `"Asc"`: not literally
lowercase, hence rejected with the `ValueError` message. -/
theorem C7_witness :
    set_direction (.str "Asc") = .error ("Invalid direction value: " ++ "Asc") :=
  (C7_direction_token_exact "Asc").2.2.2 (by decide) (by decide)

/-! ## Claim C9: creation counters -/

/-- **C9.** Column construction assigns strictly increasing creation
counters: a run of `Column.__init__` calls starting from class counter
`start` numbers the new columns `start, start+1, …` in order — each new
column's counter is strictly greater than that of every previously
constructed column — and leaves the class counter at `start + n`. -/
theorem C9_creation_counter_monotone :
    ∀ (specs : List ColumnArgs) (start : Nat) (cols : List Column)
      (final : Nat),
    mkColumns specs start = .ok (cols, final) →
    cols.map Column.creation_counter = List.range' start cols.length ∧
    (cols.map Column.creation_counter).Pairwise (· < ·) ∧
    (∀ col ∈ cols, start ≤ col.creation_counter) ∧
    final = start + cols.length := by
  intro specs start cols final h
  obtain ⟨h1, h2⟩ := mkColumns_counters specs start cols final h
  refine ⟨h1, ?_, ?_, h2⟩
  · rw [h1]
    exact range'_pairwise_lt cols.length start
  · intro col hcol
    have : col.creation_counter ∈ cols.map Column.creation_counter :=
      List.mem_map_of_mem Column.creation_counter hcol
    rw [h1] at this
    exact (List.mem_range'_1.mp this).1

/-- Witness for C9: three default columns built from counter 5 receive the
counters 5, 6, 7, strictly increasing. -/
theorem C9_witness :
    exMkCols.map Column.creation_counter = List.range' 5 3 ∧
    (exMkCols.map Column.creation_counter).Pairwise (· < ·) := by
  refine ⟨?_, ?_⟩
  · exact (C9_creation_counter_monotone exSpecs 5 exMkCols 8 rfl).1
  · exact (C9_creation_counter_monotone exSpecs 5 exMkCols 8 rfl).2.1

/-! ## Claim C3: silent dropping of invalid ordering tokens -/

/-- **C3.** Setting the ordering tokenizes the request (splitting a string
form on commas), strips each token's leading minus, validates the name
(existence in the registry, sortability policy, accessibility, and the
backing source's orderability of the accessor path — an invalid
relationship path fails validation here, before any rows are touched), and
silently drops every failing token: the result is a sublist of the request
(survivors in their original order), every surviving token validates, every
failing token is gone, and no error is raised even when everything is
dropped.  On the `test_sort` registry, `'invalid_field,population'`
resolves to exactly the single ascending key `population`, and
`('custom1', 'custom2')` resolves to the empty ordering. -/
theorem C3_invalid_tokens_dropped :
    ∀ (orderable : String → Bool) (cols : List (String × Column))
      (input : OrderInput),
    (set_order_by orderable cols input).Sublist (tokenizeOrdering input) ∧
    (∀ t ∈ set_order_by orderable cols input,
      validate_column_name orderable cols "order_by" (stripMinus t) = true) ∧
    (∀ t ∈ tokenizeOrdering input,
      validate_column_name orderable cols "order_by" (stripMinus t) = false →
      ¬t ∈ set_order_by orderable cols input) ∧
    (∀ s, set_order_by orderable cols (.str s) =
      set_order_by orderable cols (.seq (pySplitComma s))) ∧
    set_order_by exOrderable exCountryCols (.str "invalid_field,population") =
      ["population"] ∧
    parseInstructions (resolve_sort_directions exCountryCols
      (set_order_by exOrderable exCountryCols
        (.str "invalid_field,population"))) = [("population", false)] ∧
    set_order_by exOrderable exCountryCols (.seq ["custom1", "custom2"]) =
      [] := by
  intro orderable cols input
  refine ⟨?_, ?_, ?_, ?_, rfl, rfl, rfl⟩
  · exact List.filter_sublist (tokenizeOrdering input)
  · intro t ht
    exact (List.mem_filter.mp ht).2
  · intro t _ hval hmem
    have := (List.mem_filter.mp hmem).2
    rw [hval] at this
    exact absurd this (by simp)
  · intro s
    rfl

/-- Witness for C3 on the concrete registry: `population` survives (and
validates), `invalid_field` is dropped, and both facts come from the
general statement instantiated at the string form of the request. -/
theorem C3_witness :
    validate_column_name exOrderable exCountryCols "order_by"
      (stripMinus "population") = true ∧
    ¬"invalid_field" ∈ set_order_by exOrderable exCountryCols
      (.str "invalid_field,population") ∧
    (set_order_by exOrderable exCountryCols
      (.str "invalid_field,population")).Sublist
        (tokenizeOrdering (.str "invalid_field,population")) := by
  refine ⟨?_, ?_, ?_⟩
  · exact (C3_invalid_tokens_dropped exOrderable exCountryCols
      (.str "invalid_field,population")).2.1 "population" (by decide)
  · exact (C3_invalid_tokens_dropped exOrderable exCountryCols
      (.str "invalid_field,population")).2.2.1 "invalid_field" (by decide)
      (by decide)
  · exact (C3_invalid_tokens_dropped exOrderable exCountryCols
      (.str "invalid_field,population")).1

/-! ## Claim C4: effective sort direction of a token -/

/-- Counterexample to **C4** as stated: on a column declared with
`direction='desc'`, the explicitly signed token `'-name'` resolves to the
unsigned actual token `'name'`, whose parsed sort instruction is
*ascending* (`reverse = false`), not descending — the explicit minus does
not force a descending sort, it reverses the column's default direction
(mirroring `test_sort`'s `CityTable`, where `'-name'` lists Amsterdam
before Berlin). -/
theorem C4_counterexample :
    resolve_sort_directions [("name", exDescName)] [addMinus "name"] =
      ["name"] ∧
    parseInstructions (resolve_sort_directions [("name", exDescName)]
      [addMinus "name"]) = [("name", false)] ∧
    [("name", false)] ≠ [("name", true)] := by
  refine ⟨rfl, rfl, by decide⟩

/-- **C4 (amended).** For a surviving ordering key, a token with no sign
sorts in the column's own configured default direction, while a token with
an explicit leading `'-'` sorts in the *reverse* of the column's default
direction: on an ascending-default column `'-'` means descending, but on a
descending-default column the unsigned token sorts descending and the
`'-'` token sorts ascending. -/
theorem C4_effective_direction :
    ∀ (cols : List (String × Column)) (name : String) (col : Column),
    dictGet cols name = some col → startsWithMinus name = false →
    (resolve_sort_directions cols [name] =
      [if col.direction = DESC then addMinus name else name]) ∧
    (resolve_sort_directions cols [addMinus name] =
      [if col.direction = DESC then name else addMinus name]) ∧
    (col.direction ≠ DESC →
      parseInstructions (resolve_sort_directions cols [name]) =
          [(name, false)] ∧
      parseInstructions (resolve_sort_directions cols [addMinus name]) =
          [(name, true)]) ∧
    (col.direction = DESC →
      parseInstructions (resolve_sort_directions cols [name]) =
          [(name, true)] ∧
      parseInstructions (resolve_sort_directions cols [addMinus name]) =
          [(name, false)]) := by
  intro cols name col hget hnm
  have hplain : resolve_sort_directions cols [name] =
      [if col.direction = DESC then addMinus name else name] := by
    simp only [resolve_sort_directions, List.map_cons, List.map_nil,
      stripMinus_of_not_minus hnm, hget]
    by_cases hd : col.direction = DESC
    · simp [hd, toggleMinus_of_not_minus hnm]
    · simp [hd]
  have hminus : resolve_sort_directions cols [addMinus name] =
      [if col.direction = DESC then name else addMinus name] := by
    simp only [resolve_sort_directions, List.map_cons, List.map_nil,
      stripMinus_addMinus, hget]
    by_cases hd : col.direction = DESC
    · simp [hd, toggleMinus_of_minus]
    · simp [hd]
  refine ⟨hplain, hminus, ?_, ?_⟩
  · intro hd
    rw [hplain, hminus]
    simp only [if_neg hd]
    exact ⟨parseInstructions_cons_plain hnm [],
      parseInstructions_cons_minus name []⟩
  · intro hd
    rw [hplain, hminus]
    simp only [if_pos hd]
    exact ⟨parseInstructions_cons_minus name [],
      parseInstructions_cons_plain hnm []⟩

/-- Witness for C4 (amended): on the descending-default `name` column, the
unsigned token parses as a reversed (descending) instruction and the
`'-'`-signed token parses as an ascending one; on an ascending-default
column, the signs mean the usual directions. -/
theorem C4_witness :
    parseInstructions (resolve_sort_directions [("name", exDescName)]
      ["name"]) = [("name", true)] ∧
    parseInstructions (resolve_sort_directions [("name", exDescName)]
      [addMinus "name"]) = [("name", false)] ∧
    parseInstructions (resolve_sort_directions [("population", plainColumn)]
      [addMinus "population"]) = [("population", true)] := by
  refine ⟨?_, ?_, ?_⟩
  · exact ((C4_effective_direction [("name", exDescName)] "name" exDescName
      rfl rfl).2.2.2 rfl).1
  · exact ((C4_effective_direction [("name", exDescName)] "name" exDescName
      rfl rfl).2.2.2 rfl).2
  · exact ((C4_effective_direction [("population", plainColumn)] "population"
      plainColumn rfl rfl).2.2.1 (by decide)).2

/-! ## Claim C5: include-list ordering of the registry -/

theorem cfmRebuilt_keys (cl : List String) (keep : String → Bool)
    (g : String → Option Column) (hnd : cl.Nodup) :
    odKeys (odFromList (cl.filterMap
      (fun c => if keep c then some (c, g c) else none))) = cl.filter keep := by
  have hmap : (cl.filterMap
      (fun c => if keep c then some (c, g c) else none)).map Prod.fst =
      cl.filter keep := by
    rw [List.map_filterMap]
    have : ∀ c, (Option.map Prod.fst
        (if keep c then some (c, g c) else none)) =
        (if keep c then some c else none) := by
      intro c
      by_cases h : keep c
      · simp [h]
      · simp [h]
    rw [List.filterMap_congr (fun c _ => this c)]
    exact filterMap_if_eq_filter keep cl
  have hnd' : ((cl.filterMap
      (fun c => if keep c then some (c, g c) else none)).map Prod.fst).Nodup := by
    rw [hmap]
    exact hnd.filter keep
  rw [odFromList_nodup _ hnd']
  exact hmap

theorem cfmRebuilt_get (cl : List String) (keep : String → Bool)
    (g : String → Option Column) (hnd : cl.Nodup) {c : String} (hc : c ∈ cl)
    (hk : keep c = true) :
    dictGet (odFromList (cl.filterMap
      (fun c => if keep c then some (c, g c) else none))) c = some (g c) := by
  have hmap : (cl.filterMap
      (fun c => if keep c then some (c, g c) else none)).map Prod.fst =
      cl.filter keep := by
    rw [List.map_filterMap]
    have : ∀ c, (Option.map Prod.fst
        (if keep c then some (c, g c) else none)) =
        (if keep c then some c else none) := by
      intro c
      by_cases h : keep c
      · simp [h]
      · simp [h]
    rw [List.filterMap_congr (fun c _ => this c)]
    exact filterMap_if_eq_filter keep cl
  have hnd' : ((cl.filterMap
      (fun c => if keep c then some (c, g c) else none)).map Prod.fst).Nodup := by
    rw [hmap]
    exact hnd.filter keep
  rw [odFromList_nodup _ hnd']
  apply dictGet_of_mem_nodup hnd'
  exact List.mem_filterMap.mpr ⟨c, hc, by simp [hk]⟩

theorem field_dict_get_none (fields : List Field)
    (columns exclude : Option (List String)) (counter : Nat) {c : String}
    (hc : ¬c ∈ fields.map Field.name) :
    dictGet (odFromList
      (fields.foldl (cfmStep columns exclude) ([], counter)).1) c = none := by
  apply dictGet_none_of_notMem
  intro hmem
  rw [odFromList_eq_odUpdate] at hmem
  rcases (mem_odKeys_odUpdate _ [] c).mp hmem with h | h
  · simp [odKeys_nil] at h
  · rcases cfmLoop_keys columns exclude fields ([], counter) c h with h2 | h2
    · simp at h2
    · exact hc h2

/-- **C5 (amended).** With a non-empty include list, the key order of
`columns_for_model`'s result is exactly the include list filtered by the
exclude list (in include-list order, independent of creation order) — but
an include-list name that is not a kept model field is **not dropped**: it
stays in the result, bound to no column definition (`None`), and the full
metaclass merge then appends every declared name missing from that key list
(in declaration order), with a name absent from the merged set still
present and still bound to `None`.  No error is raised anywhere (the build
is a total function). -/
theorem C5_include_list_order :
    ∀ (fields : List Field) (cl : List String) (excl : Option (List String))
      (declared : List (String × Column)) (counter : Nat),
    cl ≠ [] → cl.Nodup → (declared.map Prod.fst).Nodup →
    odKeys (columns_for_model fields (some cl) excl counter).1 =
      cl.filter (fun c => !truthy excl || !listHas excl c) ∧
    (∀ c ∈ cl, (!truthy excl || !listHas excl c) = true →
      ¬c ∈ fields.map Field.name →
      dictGet (columns_for_model fields (some cl) excl counter).1 c =
        some none) ∧
    (∀ c ∈ cl, (!truthy excl || !listHas excl c) = true →
      ¬c ∈ fields.map Field.name → ¬c ∈ declared.map Prod.fst →
      dictGet (model_table_base_columns declared fields (some cl) excl
        counter).1 c = some none) ∧
    odKeys (model_table_base_columns declared fields (some cl) excl
        counter).1 =
      odKeys (columns_for_model fields (some cl) excl counter).1 ++
        (declared.map Prod.fst).filter
          (fun k => decide (¬k ∈ odKeys (columns_for_model fields (some cl)
            excl counter).1)) := by
  intro fields cl excl declared counter hne hnd hdnd
  have hempty : cl.isEmpty = false := by
    cases cl with
    | nil => exact absurd rfl hne
    | cons a r => rfl
  have hform : (columns_for_model fields (some cl) excl counter).1 =
      odFromList (cl.filterMap (fun c =>
        if !truthy excl || !listHas excl c then
          some (c, (dictGet (odFromList
            (fields.foldl (cfmStep (some cl) excl) ([], counter)).1) c).join)
        else none)) := by
    simp [columns_for_model, truthy, hempty]
  have hkeys :
      odKeys (columns_for_model fields (some cl) excl counter).1 =
      cl.filter (fun c => !truthy excl || !listHas excl c) := by
    rw [hform]
    exact cfmRebuilt_keys cl _ _ hnd
  have hgetnone : ∀ c ∈ cl, (!truthy excl || !listHas excl c) = true →
      ¬c ∈ fields.map Field.name →
      dictGet (columns_for_model fields (some cl) excl counter).1 c =
        some none := by
    intro c hc hk hnf
    rw [hform, cfmRebuilt_get cl _ _ hnd hc hk,
      field_dict_get_none fields (some cl) excl counter hnf]
    rfl
  refine ⟨hkeys, hgetnone, ?_, ?_⟩
  · intro c hc hk hnf hnd2
    show dictGet (odUpdate (columns_for_model fields (some cl) excl
      counter).1 (declared.map (fun p => (p.1, some p.2)))) c = some none
    rw [dictGet_odUpdate_notMem _ _ c (by rw [mapped_fst]; exact hnd2)]
    exact hgetnone c hc hk hnf
  · show odKeys (odUpdate (columns_for_model fields (some cl) excl
      counter).1 (declared.map (fun p => (p.1, some p.2)))) = _
    rw [odKeys_odUpdate_nodup _ _ (by rw [mapped_fst]; exact hdnd),
      mapped_fst]

/-- Counterexample to **C5** as stated: building over model fields `name`
and `population` with the include list `['population', 'bogus']` and a
declared column `extra`, the resulting key order is
`['population', 'bogus', 'extra']` — the include-list name `bogus`, absent
from the merged set, is *not* dropped (it is present, bound to `None`), and
the declared `extra`, absent from the include list, is appended — so the
order does not equal the include list restricted to merged names
(`['population']`). -/
theorem C5_counterexample :
    odKeys (model_table_base_columns [("extra", plainColumn)] exFields
      (some ["population", "bogus"]) none 0).1 =
      ["population", "bogus", "extra"] ∧
    dictGet (model_table_base_columns [("extra", plainColumn)] exFields
      (some ["population", "bogus"]) none 0).1 "bogus" = some none ∧
    ["population", "bogus", "extra"] ≠ ["population"] := by
  refine ⟨rfl, rfl, by decide⟩

/-- Witness for C5 (amended) on the counterexample's concrete build. -/
theorem C5_witness :
    odKeys (columns_for_model exFields (some ["population", "bogus"])
      none 0).1 = ["population", "bogus"] ∧
    dictGet (columns_for_model exFields (some ["population", "bogus"])
      none 0).1 "bogus" = some none ∧
    dictGet (model_table_base_columns [("extra", plainColumn)] exFields
      (some ["population", "bogus"]) none 0).1 "bogus" = some none := by
  refine ⟨?_, ?_, ?_⟩
  · exact (C5_include_list_order exFields ["population", "bogus"] none
      [("extra", plainColumn)] 0 (by decide) (by decide) (by decide)).1
  · exact (C5_include_list_order exFields ["population", "bogus"] none
      [("extra", plainColumn)] 0 (by decide) (by decide) (by decide)).2.1
      "bogus" (by decide) (by decide) (by decide)
  · exact (C5_include_list_order exFields ["population", "bogus"] none
      [("extra", plainColumn)] 0 (by decide) (by decide) (by decide)).2.2.1
      "bogus" (by decide) (by decide) (by decide) (by decide)

/-! ## Claim C6: precedence rules of registry assembly -/

/-- Counterexample to **C6** as stated: a directly declared `capital`
column survives even though `'capital'` is explicitly listed in the
exclude list — the exclude only filters the schema-synthesized entries, and
the declared overlay is applied afterwards (mirroring
`test_autogen_basic`'s `CityTable`, where the declared `capital` stays in
`base_columns` despite `exclude = ['capital']`). -/
theorem C6_counterexample :
    dictGet (model_table_base_columns [("capital", exDeclaredCol)]
      exCapitalFields none (some ["capital"]) 0).1 "capital" =
      some (some exDeclaredCol) ∧
    odKeys (model_table_base_columns [("capital", exDeclaredCol)]
      exCapitalFields none (some ["capital"]) 0).1 = ["tld", "capital"] ∧
    listHas (some ["capital"]) "capital" = true := by
  refine ⟨rfl, rfl, rfl⟩

/-- **C6 (amended).** In registry assembly, a directly declared column
definition always replaces a synthesized definition of the same name (the
declared overlay has the last word); among the schema-synthesized entries
the exclude list takes precedence over the include list when a name appears
in both (the name is absent from the result); and a directly declared
column *always* survives — even when its name is explicitly listed in the
exclude list, since the exclude filters only the schema-derived entries. -/
theorem C6_registry_precedence :
    ∀ (declared : List (String × Column)) (fields : List Field)
      (columnsOpt excl : Option (List String)) (counter : Nat),
    (declared.map Prod.fst).Nodup →
    (∀ n c, (n, c) ∈ declared →
      dictGet (model_table_base_columns declared fields columnsOpt excl
        counter).1 n = some (some c)) ∧
    (∀ n, n ∈ declared.map Prod.fst →
      n ∈ odKeys (model_table_base_columns declared fields columnsOpt excl
        counter).1) ∧
    (∀ n, truthy excl = true → listHas excl n = true →
      ¬n ∈ declared.map Prod.fst →
      dictGet (model_table_base_columns declared fields columnsOpt excl
        counter).1 n = none) := by
  intro declared fields columnsOpt excl counter hdnd
  refine ⟨?_, ?_, ?_⟩
  · intro n c hm
    show dictGet (odUpdate (columns_for_model fields columnsOpt excl
      counter).1 (declared.map (fun p => (p.1, some p.2)))) n = some (some c)
    apply dictGet_odUpdate_mem _ _ n (some c) (by rw [mapped_fst]; exact hdnd)
    exact List.mem_map_of_mem (fun p => (p.1, some p.2)) hm
  · intro n hm
    show n ∈ odKeys (odUpdate (columns_for_model fields columnsOpt excl
      counter).1 (declared.map (fun p => (p.1, some p.2))))
    apply (mem_odKeys_odUpdate _ _ n).mpr
    right
    rw [mapped_fst]
    exact hm
  · intro n htr hhas hnd2
    show dictGet (odUpdate (columns_for_model fields columnsOpt excl
      counter).1 (declared.map (fun p => (p.1, some p.2)))) n = none
    rw [dictGet_odUpdate_notMem _ _ n (by rw [mapped_fst]; exact hnd2)]
    apply dictGet_none_of_notMem
    intro hmem
    unfold columns_for_model at hmem
    by_cases htc : truthy columnsOpt
    · simp only [htc, if_pos] at hmem
      rw [odFromList_eq_odUpdate] at hmem
      rcases (mem_odKeys_odUpdate _ [] n).mp hmem with h | h
      · simp [odKeys_nil] at h
      · rcases List.mem_map.mp h with ⟨p, hp, hpn⟩
        rcases List.mem_filterMap.mp hp with ⟨c', hc', hfc⟩
        by_cases hk : (!truthy excl || !listHas excl c') = true
        · rw [if_pos hk] at hfc
          injection hfc with hfc1
          rw [← hfc1] at hpn
          simp at hpn
          rw [hpn] at hk
          rw [htr, hhas] at hk
          simp at hk
        · rw [if_neg hk] at hfc
          exact absurd hfc (by simp)
    · have htc' : truthy columnsOpt = false := by
        cases hx : truthy columnsOpt
        · rfl
        · exact absurd hx htc
      simp only [htc', Bool.false_eq_true, if_false] at hmem
      rw [odFromList_eq_odUpdate] at hmem
      rcases (mem_odKeys_odUpdate _ [] n).mp hmem with h | h
      · simp [odKeys_nil] at h
      · exact cfmLoop_excluded columnsOpt htr hhas fields ([], counter)
          (by simp) h

/-- Witness for C6 (amended) on the counterexample's build: the declared
`capital` wins over (and survives) everything, and a schema name both
included and excluded is gone. -/
theorem C6_witness :
    dictGet (model_table_base_columns [("capital", exDeclaredCol)]
      exCapitalFields none (some ["capital"]) 0).1 "capital" =
      some (some exDeclaredCol) ∧
    "capital" ∈ odKeys (model_table_base_columns [("capital", exDeclaredCol)]
      exCapitalFields none (some ["capital"]) 0).1 ∧
    dictGet (model_table_base_columns [("extra", plainColumn)]
      exCapitalFields (some ["tld", "capital"]) (some ["capital"]) 0).1
      "capital" = none := by
  refine ⟨?_, ?_, ?_⟩
  · exact (C6_registry_precedence [("capital", exDeclaredCol)]
      exCapitalFields none (some ["capital"]) 0 (by decide)).1 "capital"
      exDeclaredCol (by decide)
  · exact (C6_registry_precedence [("capital", exDeclaredCol)]
      exCapitalFields none (some ["capital"]) 0 (by decide)).2.1 "capital"
      (by decide)
  · exact (C6_registry_precedence [("extra", plainColumn)] exCapitalFields
      (some ["tld", "capital"]) (some ["capital"]) 0 (by decide)).2.2
      "capital" (by decide) (by decide) (by decide)

/-! ## Claim C2: the in-memory sort is a stable multi-key sort -/

/-- **C2.** `memory.sort_table` on a list-backed snapshot is a stable
multi-key sort: the output is a permutation of the input, pairwise ordered
by the multi-key comparator `cmpRows`; any two records that compare equal
under all keys keep their original relative order; the comparator walks the
keys in listed priority — the first key whose values differ decides, with
the comparison inverted for a key whose token carried a leading `'-'`, and
equal keys defer to the remaining keys; a callable record value is invoked
(with the row) to obtain the compared value; and `_build_snapshot` fills
column defaults into every row *before* sorting, so the compared values are
the already-defaulted resolved values. -/
theorem C2_stable_multikey_sort :
    ∀ (env : Env) (order_by : List String) (data : List Row),
    (sort_table env order_by data).Perm data ∧
    (sort_table env order_by data).Pairwise
      (fun x y => cmpRows env (parseInstructions order_by) x y ≤ 0) ∧
    (∀ x y, [x, y].Sublist data →
      cmpRows env (parseInstructions order_by) x y = 0 →
      [x, y].Sublist (sort_table env order_by data)) ∧
    (∀ (name : String) (reverse : Bool) (rest : List (String × Bool))
       (x y : Row),
      pyCmp (resolveForCmp env x name) (resolveForCmp env y name) ≠ 0 →
      cmpRows env ((name, reverse) :: rest) x y =
        (if reverse then
          -(pyCmp (resolveForCmp env x name) (resolveForCmp env y name))
         else pyCmp (resolveForCmp env x name) (resolveForCmp env y name))) ∧
    (∀ (name : String) (reverse : Bool) (rest : List (String × Bool))
       (x y : Row),
      pyCmp (resolveForCmp env x name) (resolveForCmp env y name) = 0 →
      cmpRows env ((name, reverse) :: rest) x y = cmpRows env rest x y) ∧
    (∀ (x : Row) (name : String) (f : Nat),
      dictGet x name = some (.cfun f) → resolveForCmp env x name = env f x) ∧
    (∀ (denv : Env) (cols : List (String × Column)) (ob : List String)
       (store : Store) (ids : List Nat), ob.isEmpty = false →
      build_snapshot env denv cols ob store ids =
        (fillDefaults denv cols store ids,
         ids.insertionSort (idLe env
           (parseInstructions (col_names_to_src_names cols
             (resolve_sort_directions cols ob)))
           (fillDefaults denv cols store ids)))) := by
  intro env order_by data
  refine ⟨?_, ?_, ?_, ?_, ?_, ?_, ?_⟩
  · exact List.perm_insertionSort _ data
  · haveI := rowLe_total env (parseInstructions order_by)
    haveI := rowLe_trans env (parseInstructions order_by)
    exact List.sorted_insertionSort
      (rowLe env (parseInstructions order_by)) data
  · intro x y hsub hz
    exact List.pair_sublist_insertionSort hz.le hsub
  · intro name reverse rest x y h
    simp [cmpRows, h]
  · intro name reverse rest x y h
    simp [cmpRows, h]
  · intro x name f h
    simp [resolveForCmp, h]
  · intro denv cols ob store ids h
    simp [build_snapshot, h]

/-- Witness for C2: the single-key sort of two tied rows is a permutation
preserving their order (stability), and the snapshot build for the
`test_sort`-like data first fills defaults and then sorts by the resolved
instructions; evaluating that snapshot yields the concrete row order
`[4, 2, 3, 1]` (monarchy before republic, then population descending). -/
theorem C2_witness :
    (sort_table exEnv ["system"] [exRow1, exRow3]).Perm [exRow1, exRow3] ∧
    [exRow1, exRow3].Sublist (sort_table exEnv ["system"] [exRow1, exRow3]) ∧
    build_snapshot exEnv exEnv exMemCols ["system", addMinus "population"]
        exStore [1, 2, 3, 4] =
      (fillDefaults exEnv exMemCols exStore [1, 2, 3, 4],
       [1, 2, 3, 4].insertionSort (idLe exEnv
         (parseInstructions (col_names_to_src_names exMemCols
           (resolve_sort_directions exMemCols
             ["system", addMinus "population"])))
         (fillDefaults exEnv exMemCols exStore [1, 2, 3, 4]))) ∧
    (build_snapshot exEnv exEnv exMemCols ["system", addMinus "population"]
        exStore [1, 2, 3, 4]).2 = [4, 2, 3, 1] := by
  refine ⟨?_, ?_, ?_, ?_⟩
  · exact (C2_stable_multikey_sort exEnv ["system"] [exRow1, exRow3]).1
  · exact (C2_stable_multikey_sort exEnv ["system"] [exRow1, exRow3]).2.2.1
      exRow1 exRow3 (List.Sublist.refl _) (by decide)
  · exact (C2_stable_multikey_sort exEnv ["system", addMinus "population"]
      []).2.2.2.2.2.2 exEnv exMemCols ["system", addMinus "population"]
      exStore [1, 2, 3, 4] rfl
  · decide

/-! ## Claim C8: descending vs. ascending single-key sorts -/

/-- Counterexample to **C8** as stated: on a snapshot with two records that
tie on the key, the stable sort preserves their original order under both
the ascending and the descending form of the key, so the descending result
is *not* the exact reverse of the ascending result. -/
theorem C8_counterexample :
    sort_table exEnv [addMinus "k"] [exTieA, exTieB] = [exTieA, exTieB] ∧
    (sort_table exEnv ["k"] [exTieA, exTieB]).reverse = [exTieB, exTieA] ∧
    [exTieA, exTieB] ≠ [exTieB, exTieA] := by
  refine ⟨by decide, by decide, by decide⟩

/-- **C8 (amended).** For a single-key ordering whose key values are
pairwise distinct across the snapshot (no two records tie on the key), the
descending form of the key produces the exact reverse of the order produced
by the ascending form; with ties, stability keeps tied records in their
original relative order under both forms, so the reversal only holds up to
tied blocks. -/
theorem C8_desc_reverses_asc :
    ∀ (env : Env) (k : String) (data : List Row),
    startsWithMinus k = false →
    data.Pairwise (fun x y =>
      pyCmp (resolveForCmp env x k) (resolveForCmp env y k) ≠ 0) →
    sort_table env [addMinus k] data = (sort_table env [k] data).reverse := by
  intro env k data hk hdist
  have hc : LawfulCmp (fun x y : Row =>
      pyCmp (resolveForCmp env x k) (resolveForCmp env y k)) :=
    lawful_pyCmp.comp (fun r => resolveForCmp env r k)
  have hca : ∀ x y : Row, cmpRows env (parseInstructions [k]) x y =
      pyCmp (resolveForCmp env x k) (resolveForCmp env y k) := by
    intro x y
    rw [parseInstructions_cons_plain hk]
    show cmpRows env [(k, false)] x y = _
    rw [cmpRows_single_asc]
  have hcd : ∀ x y : Row, cmpRows env (parseInstructions [addMinus k]) x y =
      -(pyCmp (resolveForCmp env x k) (resolveForCmp env y k)) := by
    intro x y
    rw [parseInstructions_cons_minus]
    show cmpRows env [(k, true)] x y = _
    rw [cmpRows_single_desc]
  have hsymm : ∀ {x y : Row},
      (pyCmp (resolveForCmp env x k) (resolveForCmp env y k) ≠ 0) →
      (pyCmp (resolveForCmp env y k) (resolveForCmp env x k) ≠ 0) := by
    intro x y h
    have := hc.neg x y
    omega
  -- the ascending result, strictly sorted
  have hperm_asc : (sort_table env [k] data).Perm data :=
    List.perm_insertionSort _ data
  have hsorted_asc : (sort_table env [k] data).Pairwise
      (fun x y => cmpRows env (parseInstructions [k]) x y ≤ 0) := by
    haveI := rowLe_total env (parseInstructions [k])
    haveI := rowLe_trans env (parseInstructions [k])
    exact List.sorted_insertionSort (rowLe env (parseInstructions [k])) data
  have hdist_asc : (sort_table env [k] data).Pairwise (fun x y =>
      pyCmp (resolveForCmp env x k) (resolveForCmp env y k) ≠ 0) :=
    ((List.Perm.pairwise_iff (fun h => hsymm h) hperm_asc).mpr hdist)
  have hstrict_asc : (sort_table env [k] data).Pairwise (fun x y =>
      pyCmp (resolveForCmp env x k) (resolveForCmp env y k) < 0) := by
    refine (hsorted_asc.and hdist_asc).imp ?_
    intro a b hab
    have h1 := hab.1
    rw [hca] at h1
    omega
  -- the descending result, strictly sorted the other way
  have hperm_desc : (sort_table env [addMinus k] data).Perm data :=
    List.perm_insertionSort _ data
  have hsorted_desc : (sort_table env [addMinus k] data).Pairwise
      (fun x y => cmpRows env (parseInstructions [addMinus k]) x y ≤ 0) := by
    haveI := rowLe_total env (parseInstructions [addMinus k])
    haveI := rowLe_trans env (parseInstructions [addMinus k])
    exact List.sorted_insertionSort
      (rowLe env (parseInstructions [addMinus k])) data
  have hdist_desc : (sort_table env [addMinus k] data).Pairwise (fun x y =>
      pyCmp (resolveForCmp env x k) (resolveForCmp env y k) ≠ 0) :=
    ((List.Perm.pairwise_iff (fun h => hsymm h) hperm_desc).mpr hdist)
  have hstrict_desc : (sort_table env [addMinus k] data).Pairwise
      (fun x y =>
        pyCmp (resolveForCmp env y k) (resolveForCmp env x k) < 0) := by
    refine (hsorted_desc.and hdist_desc).imp ?_
    intro a b hab
    have h1 := hab.1
    rw [hcd] at h1
    have h2 := hab.2
    have := hc.neg a b
    omega
  have hstrict_rev : (sort_table env [addMinus k] data).reverse.Pairwise
      (fun x y =>
        pyCmp (resolveForCmp env x k) (resolveForCmp env y k) < 0) :=
    List.pairwise_reverse.mpr hstrict_desc
  have hperm : (sort_table env [k] data).Perm
      (sort_table env [addMinus k] data).reverse :=
    hperm_asc.trans (hperm_desc.symm.trans
      (sort_table env [addMinus k] data).reverse_perm.symm)
  have heq : sort_table env [k] data =
      (sort_table env [addMinus k] data).reverse := by
    refine eq_of_perm_of_pairwise_asymm ?_ hperm hstrict_asc hstrict_rev
    intro x y h1 h2
    have := hc.neg x y
    omega
  rw [heq, List.reverse_reverse]

/-- Witness for C8 (amended) on rows with pairwise distinct populations:
the descending sort is the reverse of the ascending sort. -/
theorem C8_witness :
    sort_table exEnv [addMinus "population"] [exRow1, exRow2, exRow3] =
      (sort_table exEnv ["population"] [exRow1, exRow2, exRow3]).reverse :=
  C8_desc_reverses_asc exEnv "population" [exRow1, exRow2, exRow3] rfl
    (by decide)

/-! ## Claim C10: the snapshot build mutates the source rows in place -/

/-- **C10.** `MemoryTable._build_snapshot` copies the data list only
shallowly (the snapshot is a permutation of the very same row objects — the
same row identities) and then mutates the shared rows in place: after the
build, the store is exactly the default-filled store, so every original
source record holds a non-absent value at every column's source accessor
(the computed default was written wherever the value was missing or `None`
— in particular `None` itself when the column has no default — while
present non-`None` values are untouched), and rows not in the data list are
unchanged. -/
theorem C10_snapshot_mutates_source :
    ∀ (env denv : Env) (cols : List (String × Column))
      (order_by : List String) (store : Store) (ids : List Nat),
    ((build_snapshot env denv cols order_by store ids).1 =
      fillDefaults denv cols store ids) ∧
    ((build_snapshot env denv cols order_by store ids).2.Perm ids) ∧
    (∀ i ∈ ids, ∀ nc ∈ cols,
      dictGet ((build_snapshot env denv cols order_by store ids).1 i)
        (srcAccessor nc.1 nc.2) ≠ none) ∧
    (∀ j, ¬j ∈ ids →
      (build_snapshot env denv cols order_by store ids).1 j = store j) ∧
    (∀ i ∈ ids, ∀ (s : String) (v : Cell), dictGet (store i) s = some v →
      v ≠ Cell.cnone →
      dictGet ((build_snapshot env denv cols order_by store ids).1 i) s =
        some v) ∧
    (∀ i ∈ ids, ∀ nc ∈ cols, NoDefaultAt (srcAccessor nc.1 nc.2) cols →
      (dictGet (store i) (srcAccessor nc.1 nc.2)).getD Cell.cnone =
        Cell.cnone →
      dictGet ((build_snapshot env denv cols order_by store ids).1 i)
        (srcAccessor nc.1 nc.2) = some Cell.cnone) := by
  intro env denv cols order_by store ids
  have hfst : (build_snapshot env denv cols order_by store ids).1 =
      fillDefaults denv cols store ids := by
    by_cases h : order_by.isEmpty <;> simp [build_snapshot, h]
  refine ⟨hfst, ?_, ?_, ?_, ?_, ?_⟩
  · by_cases h : order_by.isEmpty
    · simp [build_snapshot, h]
    · have h' : order_by.isEmpty = false := by
        cases hx : order_by.isEmpty
        · rfl
        · exact absurd hx h
      simp only [build_snapshot, h', Bool.false_eq_true, if_false]
      exact List.perm_insertionSort _ ids
  · intro i hi nc hnc
    rw [hfst]
    exact fillDefaults_covers ids store i hi nc hnc
  · intro j hj
    rw [hfst]
    exact fillDefaults_frame ids store j hj
  · intro i hi s v hget hv
    rw [hfst]
    exact fillDefaults_keeps hv ids store i hget
  · intro i hi nc hnc hnd habs
    rw [hfst]
    exact fillDefaults_no_default hnd hnc rfl ids store i hi habs

/-- Witness for C10 on the concrete store: after the build, the row that
had no `system` value holds the written default `"republic"`, the row that
had no `population` value (and no default on that column) holds a written
explicit `None`, a present value survives untouched, and a row outside the
data list is unchanged. -/
theorem C10_witness :
    dictGet ((build_snapshot exEnv exEnv exMemCols [] exStore
      [1, 2, 3, 4, 5]).1 2) "system" ≠ none ∧
    dictGet ((build_snapshot exEnv exEnv exMemCols [] exStore
      [1, 2, 3, 4, 5]).1 5) "population" = some Cell.cnone ∧
    dictGet ((build_snapshot exEnv exEnv exMemCols [] exStore
      [1, 2, 3, 4, 5]).1 1) "population" = some (Cell.cint 8) ∧
    (build_snapshot exEnv exEnv exMemCols [] exStore [1, 2, 3, 4, 5]).1 7 =
      exStore 7 := by
  refine ⟨?_, ?_, ?_, ?_⟩
  · exact (C10_snapshot_mutates_source exEnv exEnv exMemCols [] exStore
      [1, 2, 3, 4, 5]).2.2.1 2 (by decide) ("system", exSystemDefault)
      (by decide)
  · refine (C10_snapshot_mutates_source exEnv exEnv exMemCols [] exStore
      [1, 2, 3, 4, 5]).2.2.2.2.2 5 (by decide) ("population", plainColumn)
      (by decide) ?_ (by decide)
    intro nc hm hs
    rcases List.mem_cons.mp hm with h | h
    · rw [h]
      rfl
    · rcases List.mem_cons.mp h with h2 | h2
      · rw [h2] at hs
        exact absurd hs (by decide)
      · simp at h2
  · exact (C10_snapshot_mutates_source exEnv exEnv exMemCols [] exStore
      [1, 2, 3, 4, 5]).2.2.2.2.1 1 (by decide) "population" (Cell.cint 8)
      (by decide) (by decide)
  · exact (C10_snapshot_mutates_source exEnv exEnv exMemCols [] exStore
      [1, 2, 3, 4, 5]).2.2.2.1 7 (by decide)

end DjangoTables
